import Mathlib

/-!
Verification of the `clr` command-line dispatcher (`src/clr/commands.py`,
`src/clr/main.py`) against its natural-language specification.

The development shallowly embeds:
  * the data model: `Value` (Python scalar values used as parameter defaults
    and parsed arguments), `Param`/`Sig`/`CommandSpec` (the reflected command
    signatures, `commands.py` lines 148-154),
  * the argument grammar builder `Namespace.argument_parser`
    (`commands.py` lines 206-393), as a function from a command spec to a
    list of parser actions plus mutually-exclusive groups,
  * the behaviour of the `argparse` parser that the builder constructs, as an
    executable token-parsing function (`parseTokens`): this models the
    fragment of Python's argparse exercised by the generated grammars
    (positional runs matched greedily against pending positional actions,
    exact `--flag` / `--flag=value` option matching, `store_true`/`store_false`
    actions, mutually-exclusive-group conflict detection, required-group and
    required-positional checks, trailing unrecognized-argument errors).
    External-library modelling notes are given at each definition,
  * the binder `Namespace.parse_args` (`commands.py` lines 172-204) including
    the `NoneIgnoringArgparseDestination` semantics and `Signature.bind` +
    `apply_defaults`,
  * the namespace registry (`_load_namespace` / `get_namespace`,
    lines 32-79), `ErrorLoadingNamespace` (lines 396-421),
    `NamespaceCacheEntry` and `NamespaceCache` (lines 424-511),
  * `_get_close_matches` / `resolve_command` (lines 82-129), and
  * `System.cmd_complete_arg` (lines 548-567).
-/

namespace Clr

/-- Python runtime values appearing as parameter defaults and parsed argument
values in `clr` command signatures.  The supported default types in
`argument_parser` are `str`, `bool`, `int`, `float` and `None`
(`commands.py` line 345); commands verified here use `str`, `bool`, `int`
and `None`, so `float` is left out of the modelled universe.  `vtuple` is the
tuple a variadic `*args` parameter binds to. -/
inductive Value where
  | vstr (s : String)
  | vint (n : Int)
  | vbool (b : Bool)
  | vnone
  | vtuple (xs : List Value)
deriving Repr

/-- Parameter kinds of `inspect.Parameter` that occur in `clr` command
callables: `POSITIONAL_OR_KEYWORD`, `VAR_POSITIONAL` (`*args`),
`KEYWORD_ONLY`, and `VAR_KEYWORD` (`**kwargs`). -/
inductive PKind where
  | posOrKw
  | varPos
  | kwOnly
  | varKw
deriving DecidableEq, Repr

/-- One parameter of a command signature: its name, kind, and default value
(`none` models `inspect.Signature.empty`, i.e. no default; `some .vnone`
models an explicit default of Python `None`). -/
structure Param where
  name : String
  kind : PKind
  default : Option Value
deriving Repr

/-- A command callable's signature: its parameters in declaration order (the
bound-method receiver `self` is already excluded, as `inspect.getmembers(...,
inspect.ismethod)` yields bound methods). -/
structure Sig where
  params : List Param
deriving Repr

/-- `CommandSpec` (`commands.py` lines 148-154): pickle-able specification of
a command, holding the doc string and the signature. -/
structure CommandSpec where
  docstr : String
  signature : Sig
deriving Repr

/-- `True` iff the signature has a `VAR_POSITIONAL` (`*args`) parameter
(`commands.py` line 177 / 273). -/
def Sig.hasVarPos (s : Sig) : Bool := s.params.any (fun p => p.kind == .varPos)

/-- Scalar coercion types used by the generated parser actions.  `argparse`'s
`type=None` (pass the token through as `str`) and `type=int` are the cases
arising for the modelled `Value` universe. -/
inductive PType where
  | tstr
  | tint
deriving DecidableEq, Repr

/-- The kinds of `argparse` actions that `argument_parser` creates:
  * `posOne`: `parser.add_argument(name, type=str)` - a required positional
    (only emitted when the command has a `*args` parameter, line 303),
  * `posOpt t`: `add_argument(name, nargs="?", type=t)` (lines 313-318 and
    382-387),
  * `posStar`: the `*args` positional with `nargs="*"` (line 326-327),
  * `posRem`: the `*args` positional with `nargs=argparse.REMAINDER`, emitted
    only for `system:smart_complete` (lines 322-324),
  * `optVal t`: `add_argument("--name", type=t)` (lines 308-312, 375-377,
    388-392),
  * `optTrue`: `add_argument("--name", action="store_true", default=None)`
    (lines 360-365),
  * `optFalse`: `add_argument("--noname", dest=name, action="store_false",
    default=None)` (lines 366-372). -/
inductive ActKind where
  | posOne
  | posOpt (t : PType)
  | posStar
  | posRem
  | optVal (t : PType)
  | optTrue
  | optFalse
deriving DecidableEq, Repr

/-- A parser action: destination attribute name, kind, and the id of the
mutually exclusive group it belongs to, if any. -/
structure Action where
  dest : String
  kind : ActKind
  group : Option Nat
deriving DecidableEq, Repr

/-- Whether the action is a positional action. -/
def Action.isPositional (a : Action) : Bool :=
  match a.kind with
  | .posOne => true
  | .posOpt _ => true
  | .posStar => true
  | .posRem => true
  | _ => false

/-- The option string of an option action (`--name`, or `--noname` for the
`store_false` action), `none` for positionals. -/
def Action.optionString (a : Action) : Option String :=
  match a.kind with
  | .optVal _ => some ("--" ++ a.dest)
  | .optTrue => some ("--" ++ a.dest)
  | .optFalse => some ("--no" ++ a.dest)
  | _ => none

/-- The name argparse uses for the action in error messages
(`_get_action_name`): the first option string for options, the destination
for positionals. -/
def Action.errName (a : Action) : String := a.optionString.getD a.dest

/-- The parser grammar `argument_parser` builds: the actions in creation
order, and for each mutually exclusive group (by id, in creation order)
whether the group is required. -/
structure Grammar where
  actions : List Action
  groups : List Bool
deriving DecidableEq, Repr

/-- The action at index `i` (indices into `Grammar.actions`; the fallback is
never reached for indices produced by the parser itself). -/
def Grammar.act (g : Grammar) (i : Nat) : Action :=
  g.actions.getD i ⟨"", .posOne, none⟩

/-- Accumulator state while `argument_parser` walks the parameters:
actions and groups created so far, and the `before_var_positional` flag
(`commands.py` line 275). -/
structure BuildSt where
  acts : List Action
  grps : List Bool
  beforeVar : Bool
deriving DecidableEq, Repr

/-- Adds the actions for an optional non-boolean parameter (`commands.py`
lines 373-392): with a `*args` parameter present only the `--name` flag is
added; otherwise a non-required mutually exclusive group holding the
`nargs="?"` positional and the `--name` flag. -/
def addNonBool (st : BuildSt) (p : Param) (t : PType) (hasVar bv : Bool) : BuildSt :=
  if hasVar then
    ⟨st.acts ++ [⟨p.name, .optVal t, none⟩], st.grps, bv⟩
  else
    ⟨st.acts ++ [⟨p.name, .posOpt t, some st.grps.length⟩,
                 ⟨p.name, .optVal t, some st.grps.length⟩],
     st.grps ++ [false], bv⟩

/-- One step of `argument_parser`'s parameter loop (`commands.py`
lines 278-392), translating a parameter into parser actions.  Error results
model the `AssertionError`s raised for invalid command declarations. -/
def buildParam (hasVar isSmart : Bool) (st : BuildSt) (p : Param) : Except String BuildSt :=
  let required := p.default.isNone
  let bv := if st.beforeVar && (p.kind == .varPos) then false else st.beforeVar
  if bv && !required then
    .error ("Can not have optional arg (" ++ p.name ++ ") before a *vararg")
  else if required then
    match p.kind with
    | .posOrKw =>
      if hasVar then
        .ok ⟨st.acts ++ [⟨p.name, .posOne, none⟩], st.grps, bv⟩
      else
        .ok ⟨st.acts ++ [⟨p.name, .optVal .tstr, some st.grps.length⟩,
                         ⟨p.name, .posOpt .tstr, some st.grps.length⟩],
             st.grps ++ [true], bv⟩
    | .varPos =>
      .ok ⟨st.acts ++ [⟨p.name, if isSmart then .posRem else .posStar, none⟩], st.grps, bv⟩
    | _ => .error ("Unexpected kind of positional param " ++ p.name)
  else
    if !(p.kind == .posOrKw || p.kind == .kwOnly) then
      .error ("Unexpected kwarg **" ++ p.name)
    else
      match p.default with
      | some Value.vnone => .ok (addNonBool st p .tstr hasVar bv)
      | some (Value.vstr _) => .ok (addNonBool st p .tstr hasVar bv)
      | some (Value.vint _) => .ok (addNonBool st p .tint hasVar bv)
      | some (Value.vbool _) =>
        .ok ⟨st.acts ++ [⟨p.name, .optTrue, some st.grps.length⟩,
                         ⟨p.name, .optFalse, some st.grps.length⟩],
             st.grps ++ [false], bv⟩
      | some (Value.vtuple _) => .error ("Unexpected arg type for " ++ p.name)
      | none => .error ("Unexpected arg type for " ++ p.name)

/-- The option strings of a list of actions, in creation order. -/
def optionStringsOf (acts : List Action) : List String :=
  acts.filterMap Action.optionString

/-- Boolean no-duplicates check on strings. -/
def listNodup : List String → Bool
  | [] => true
  | s :: rest => !(rest.contains s) && listNodup rest

/-- `Namespace.argument_parser` (`commands.py` lines 206-393): builds the
parser grammar for a command spec.  The `isSmart` special case
(`key == "system" and command_name == "smart_complete"`, lines 322-326)
selects `argparse.REMAINDER` for the vararg.  A duplicate option string makes
`argparse.add_argument` raise (`ArgumentError: conflicting option string`),
modelled by the final check. -/
def argumentParser (key cmdName : String) (spec : CommandSpec) : Except String Grammar :=
  let ps := spec.signature.params
  let hasVar := ps.any (fun p => p.kind == .varPos)
  let isSmart := key == "system" && cmdName == "smart_complete"
  match ps.foldlM (buildParam hasVar isSmart) (⟨[], [], hasVar⟩ : BuildSt) with
  | .error m => .error m
  | .ok st =>
    if listNodup (optionStringsOf st.acts) then .ok ⟨st.acts, st.grps⟩
    else .error "conflicting option strings"

/-- Errors the generated `argparse` parser reports via `parser.error(...)`,
which prints usage to stderr and calls `sys.exit(2)`. -/
inductive ParseErr where
  | invalidValue (argName typeName raw : String)
  | notAllowedWith (argName conflictName : String)
  | expectedOneArgument (argName : String)
  | ignoredExplicitArgument (argName : String)
  | missingRequiredArgs (names : List String)
  | requiredGroupMissing (names : List String)
  | unrecognizedArguments (toks : List String)
deriving DecidableEq, Repr

/-- Every `argparse` parsing error exits the process with status 2
(`argparse.ArgumentParser.error`). -/
def ParseErr.exitCode : ParseErr → Nat := fun _ => 2

/-- Digits-to-Nat parser used to model Python `int(...)`. -/
def digitsToNat : List Char → Option Nat
  | [] => none
  | cs =>
    cs.foldlM (fun acc c => if c.isDigit then some (acc * 10 + (c.toNat - 48)) else none) 0

/-- Models Python `int(str)` on the forms exercised here: an optional sign
followed by decimal digits.  (Python additionally strips surrounding
whitespace and allows underscores between digits; no verified input uses
those forms.) -/
def pyIntParse (s : String) : Option Int :=
  match s.data with
  | '-' :: rest => (digitsToNat rest).map (fun n => -(n : Int))
  | '+' :: rest => (digitsToNat rest).map (fun n => (n : Int))
  | cs => (digitsToNat cs).map (fun n => (n : Int))

/-- Applies the action's `type` conversion to a raw token
(`argparse._get_values` / `_get_value`): `type=None` passes the string
through, `type=int` parses and reports `invalid int value: '...'` on
failure. -/
def convert (t : PType) (argName raw : String) : Except ParseErr Value :=
  match t with
  | .tstr => .ok (.vstr raw)
  | .tint =>
    match pyIntParse raw with
    | some n => .ok (.vint n)
    | none => .error (.invalidValue argName "int" raw)

/-- Parser state while consuming tokens:
  * `attrs`: the destination namespace.  Models
    `NoneIgnoringArgparseDestination` (`commands.py` lines 132-145): only
    non-`None` values are ever stored, so an attribute is present exactly
    when some action actually assigned a value,
  * `seen`: indices of actions argparse has visited (`seen_actions`),
  * `seenND`: indices of actions that received a non-default value
    (`seen_non_default_actions`), used for mutually-exclusive-group
    conflicts and required-group checks,
  * `pending`: indices of positional actions not yet consumed,
  * `extras`: unrecognized tokens. -/
structure PState where
  attrs : List (String × Value)
  seen : List Nat
  seenND : List Nat
  pending : List Nat
  extras : List String
deriving Repr

/-- Sets attribute `k` to `v`, replacing an existing binding in place or
appending a new one. -/
def setAttr (ns : List (String × Value)) (k : String) (v : Value) : List (String × Value) :=
  match ns with
  | [] => [(k, v)]
  | (k2, v2) :: rest => if k2 == k then (k, v) :: rest else (k2, v2) :: setAttr rest k v

/-- Looks up attribute `n` (Python `getattr`/`hasattr`). -/
def lookupAttr (attrs : List (String × Value)) (n : String) : Option Value :=
  (attrs.find? (fun p => p.1 == n)).map (fun p => p.2)

/-- Finds an already-seen non-default action in the same mutually exclusive
group as action `i` (`argparse`'s conflict detection in `take_action`). -/
def groupConflict (g : Grammar) (st : PState) (i : Nat) : Option Nat :=
  match (g.act i).group with
  | none => none
  | some gr => st.seenND.find? (fun j => j != i && (g.act j).group == some gr)

/-- `take_action` for an action receiving a non-default value: raises the
mutually-exclusive conflict if another group member was already given,
otherwise records the action and stores the value. -/
def takeAction (g : Grammar) (st : PState) (i : Nat) (v : Value) : Except ParseErr PState :=
  match groupConflict g st i with
  | some j => .error (.notAllowedWith (g.act i).errName (g.act j).errName)
  | none => .ok {st with
      attrs := setAttr st.attrs (g.act i).dest v,
      seen := st.seen ++ [i],
      seenND := st.seenND ++ [i]}

/-- `take_action` for a `nargs="?"` positional matched with zero tokens: the
value is the default `None`, which the `NoneIgnoringArgparseDestination`
discards, so only `seen_actions` is updated. -/
def markSeen (st : PState) (i : Nat) : PState := {st with seen := st.seen ++ [i]}

/-- Whether the first list of characters is a prefix of the second
(structural model of Python `str.startswith`). -/
def isPrefixChars : List Char → List Char → Bool
  | [], _ => true
  | _ :: _, [] => false
  | p :: ps, c :: cs => p == c && isPrefixChars ps cs

/-- Python `s.startswith(pre)`. -/
def strStarts (s pre : String) : Bool := isPrefixChars pre.data s.data

/-- ASCII whitespace (the characters Python `str.strip()` removes on the
inputs arising here). -/
def isPySpace (c : Char) : Bool :=
  c == ' ' || c == '\t' || c == '\n' || c == '\r'

/-- Python `s.strip()`. -/
def pyStrip (s : String) : String :=
  String.mk (((s.data.dropWhile isPySpace).reverse.dropWhile isPySpace).reverse)

/-- Whether argparse would treat the token as a negative-number positional:
the generated parsers have no numeric-looking option strings, so a token
matching `-\d...` is classified as a positional.  (Python's matcher also
accepts a decimal point; no verified grammar or input depends on that.) -/
def looksNegNum (tok : String) : Bool :=
  match tok.data with
  | '-' :: c :: rest => (c :: rest).all Char.isDigit
  | _ => false

/-- Token classification (`argparse._parse_optional`): a token is an option
token iff it starts with `-`, is not `-` alone, and does not look like a
negative number.  (The bare `--` separator and option-string abbreviation are
not modelled; every option token in the verified grammars and inputs is an
exact option string.) -/
def tokenIsOpt (tok : String) : Bool :=
  strStarts tok "-" && tok != "-" && !(looksNegNum tok)

/-- Splits a token at its first `=` (`argparse` explicit-argument syntax
`--name=value`). -/
def splitEqChars : List Char → List Char × Option (List Char)
  | [] => ([], none)
  | c :: rest =>
    if c = '=' then ([], some rest)
    else
      let p := splitEqChars rest
      (c :: p.1, p.2)

/-- Finds the index of the action whose option string is `optStr`. -/
def findOptIdxAux (acts : List Action) (optStr : String) (base : Nat) : Option Nat :=
  match acts with
  | [] => none
  | a :: rest =>
    if a.optionString == some optStr then some base
    else findOptIdxAux rest optStr (base + 1)

/-- Index of the action registered for option string `optStr`, if any. -/
def findOptionIdx (g : Grammar) (optStr : String) : Option Nat :=
  findOptIdxAux g.actions optStr 0

/-- Indices (from `base`) of the positional actions in `acts`, in order. -/
def positionalIdxs (acts : List Action) (base : Nat) : List Nat :=
  match acts with
  | [] => []
  | a :: rest =>
    if a.isPositional then base :: positionalIdxs rest (base + 1)
    else positionalIdxs rest (base + 1)

/-- Sum of a list of counts. -/
def sumList : List Nat → Nat
  | [] => 0
  | c :: cs => c + sumList cs

/-- Greedy token counts for a list of pending positional actions, matching
`argparse`'s nargs regular expressions against the remaining tokens:
`availA` is the number of leading non-option tokens, `total` the number of
remaining tokens.  `posOne` (`(-*A-*)`) takes exactly one token, `posOpt`
(`(-*A?-*)`) takes one if available, `posStar` (`(-*[A-]*)`) takes all
leading non-option tokens, `posRem` (`([-AO]*)`) takes everything to the end
of the line.  In every grammar `argument_parser` generates, the positional
actions are either all `posOpt`, or a block of `posOne` followed by at most
one `posStar`/`posRem`, so left-to-right greedy matching coincides with the
regex semantics. -/
def greedyCounts (g : Grammar) : List Nat → Nat → Nat → Option (List Nat)
  | [], _, _ => some []
  | i :: is, availA, total =>
    match (g.act i).kind with
    | .posOne =>
      if availA = 0 then none
      else (greedyCounts g is (availA - 1) (total - 1)).map (fun cs => 1 :: cs)
    | .posOpt _ =>
      let k := min 1 availA
      (greedyCounts g is (availA - k) (total - k)).map (fun cs => k :: cs)
    | .posStar =>
      (greedyCounts g is 0 (total - availA)).map (fun cs => availA :: cs)
    | .posRem =>
      (greedyCounts g is 0 0).map (fun cs => total :: cs)
    | _ => none

/-- `argparse._match_arguments_partial`: tries to match the first `n`
pending positionals, for `n` from all of them down to none, returning the
counts of the first success (an empty list means nothing is consumed). -/
def matchPartialFrom (g : Grammar) (idxs : List Nat) : Nat → Nat → Nat → List Nat
  | 0, _, _ => []
  | n + 1, availA, total =>
    match greedyCounts g (idxs.take (n + 1)) availA total with
    | some cs => cs
    | none => matchPartialFrom g idxs n availA total

/-- The counts chosen by `_match_arguments_partial` for the pending
positionals against the remaining tokens. -/
def matchPartial (g : Grammar) (idxs : List Nat) (availA total : Nat) : List Nat :=
  matchPartialFrom g idxs idxs.length availA total

/-- `consume_positionals`: assigns the matched token counts to the matched
positional actions, applying type conversion and `take_action` semantics
(`posOpt` with zero tokens is seen-but-default; `posStar`/`posRem` store the
tuple of their tokens, which is non-default even when empty). -/
def assignPositionals (g : Grammar) :
    PState → List Nat → List Nat → List String → Except ParseErr PState
  | st, [], _, _ => .ok st
  | st, _ :: _, [], _ => .ok st
  | st, i :: is, c :: cs, toks =>
    let taken := toks.take c
    let rest := toks.drop c
    match (g.act i).kind, taken with
    | .posOne, [t] =>
      match convert .tstr (g.act i).errName t with
      | .error e => .error e
      | .ok v =>
        match takeAction g st i v with
        | .error e => .error e
        | .ok st2 => assignPositionals g st2 is cs rest
    | .posOpt _, [] => assignPositionals g (markSeen st i) is cs rest
    | .posOpt ty, [t] =>
      match convert ty (g.act i).errName t with
      | .error e => .error e
      | .ok v =>
        match takeAction g st i v with
        | .error e => .error e
        | .ok st2 => assignPositionals g st2 is cs rest
    | .posStar, ts =>
      match takeAction g st i (.vtuple (ts.map Value.vstr)) with
      | .error e => .error e
      | .ok st2 => assignPositionals g st2 is cs rest
    | .posRem, ts =>
      match takeAction g st i (.vtuple (ts.map Value.vstr)) with
      | .error e => .error e
      | .ok st2 => assignPositionals g st2 is cs rest
    | _, _ => .error (.unrecognizedArguments toks)

/-- `consume_optional`: handles one option token.  Returns the new state and
how many extra tokens (beyond the option token itself) were consumed.  An
unknown option string goes to `extras`.  A value-taking option takes its
explicit `=` argument, or the next token when that token is classified as a
positional, and otherwise reports `expected one argument`; `store_true` /
`store_false` flags reject an explicit argument. -/
def consumeOptional (g : Grammar) (st : PState) (tok : String) (rest : List String) :
    Except ParseErr (PState × Nat) :=
  let sp := splitEqChars tok.data
  let optStr := String.mk sp.1
  match findOptionIdx g optStr with
  | none => .ok ({st with extras := st.extras ++ [tok]}, 0)
  | some i =>
    match (g.act i).kind with
    | .optVal t =>
      match sp.2 with
      | some v =>
        match convert t (g.act i).errName (String.mk v) with
        | .error e => .error e
        | .ok val =>
          match takeAction g st i val with
          | .error e => .error e
          | .ok st2 => .ok (st2, 0)
      | none =>
        match rest with
        | [] => .error (.expectedOneArgument (g.act i).errName)
        | r :: _ =>
          if tokenIsOpt r then .error (.expectedOneArgument (g.act i).errName)
          else
            match convert t (g.act i).errName r with
            | .error e => .error e
            | .ok val =>
              match takeAction g st i val with
              | .error e => .error e
              | .ok st2 => .ok (st2, 1)
    | .optTrue =>
      if sp.2.isSome then .error (.ignoredExplicitArgument (g.act i).errName)
      else
        match takeAction g st i (.vbool true) with
        | .error e => .error e
        | .ok st2 => .ok (st2, 0)
    | .optFalse =>
      if sp.2.isSome then .error (.ignoredExplicitArgument (g.act i).errName)
      else
        match takeAction g st i (.vbool false) with
        | .error e => .error e
        | .ok st2 => .ok (st2, 0)
    | _ => .error (.unrecognizedArguments [tok])

/-- The main loop of `parse_known_args`: alternately consume an option token
or a run of positional tokens (matched against the pending positional
actions).  The fuel argument is initialised to the token count; every
iteration consumes at least one token, so the fuel-exhausted branch is
unreachable. -/
def parseLoop (g : Grammar) : Nat → PState → List String → Except ParseErr PState
  | _, st, [] => .ok st
  | 0, _, tok :: rest => .error (.unrecognizedArguments (tok :: rest))
  | fuel + 1, st, tok :: rest =>
    if tokenIsOpt tok then
      match consumeOptional g st tok rest with
      | .error e => .error e
      | .ok (st2, k) => parseLoop g fuel st2 (rest.drop k)
    else
      let toks := tok :: rest
      let availA := (toks.takeWhile (fun t => !(tokenIsOpt t))).length
      match matchPartial g st.pending availA toks.length with
      | [] => parseLoop g fuel {st with extras := st.extras ++ [tok]} rest
      | c :: cs =>
        match assignPositionals g {st with pending := st.pending.drop (c :: cs).length}
            (st.pending.take (c :: cs).length) (c :: cs) toks with
        | .error e => .error e
        | .ok st2 => parseLoop g fuel st2 (toks.drop (sumList (c :: cs)))

/-- Whether a positional action can match zero tokens. -/
def nullableKind : ActKind → Bool
  | .posOpt _ => true
  | .posStar => true
  | .posRem => true
  | _ => false

/-- End-of-input consumption of one still-pending positional: `nargs="?"` is
seen with its default (discarded) `None`; `nargs="*"`/`REMAINDER` store an
empty tuple. -/
def endStep (g : Grammar) (st : PState) (i : Nat) : PState :=
  match (g.act i).kind with
  | .posOpt _ => markSeen st i
  | .posStar =>
    {st with
      attrs := setAttr st.attrs (g.act i).dest (.vtuple []),
      seen := st.seen ++ [i],
      seenND := st.seenND ++ [i]}
  | .posRem =>
    {st with
      attrs := setAttr st.attrs (g.act i).dest (.vtuple []),
      seen := st.seen ++ [i],
      seenND := st.seenND ++ [i]}
  | _ => st

/-- The final `consume_positionals` on an empty remainder: the longest
all-nullable prefix of the pending positionals matches zero-width (a
non-nullable `posOne` stops the match, leaving it and everything after it
unseen). -/
def endConsume (g : Grammar) (st : PState) : PState :=
  (st.pending.takeWhile (fun i => nullableKind (g.act i).kind)).foldl (endStep g) st

/-- The `required_actions` check after the loop: among the generated actions
only `nargs`-one positionals (`posOne`) are individually required; any of
them not seen is reported (`the following arguments are required: ...`). -/
def requiredActionsCheck (g : Grammar) (st : PState) : Option ParseErr :=
  let missing := (positionalIdxs g.actions 0).filter
    (fun i => (g.act i).kind == .posOne && !(st.seen.contains i))
  if missing.isEmpty then none
  else some (.missingRequiredArgs (missing.map (fun i => (g.act i).errName)))

/-- Whether some action in `nd` belongs to group `gr`. -/
def ndHasGroup (g : Grammar) (nd : List Nat) (gr : Nat) : Bool :=
  nd.any (fun i => (g.act i).group == some gr)

/-- The member names of a group, in creation order (used in the
`one of the arguments ... is required` message). -/
def groupNames (g : Grammar) (gr : Nat) : List String :=
  g.actions.filterMap (fun a => if a.group == some gr then some a.errName else none)

/-- Walks the mutually exclusive groups in creation order; a required group
none of whose members received a value is an error. -/
def groupCheckGo (g : Grammar) (st : PState) : List Bool → Nat → Option ParseErr
  | [], _ => none
  | req :: rest, gr =>
    if req && !(ndHasGroup g st.seenND gr) then
      some (.requiredGroupMissing (groupNames g gr))
    else groupCheckGo g st rest (gr + 1)

/-- The required-group check after the loop. -/
def groupCheck (g : Grammar) (st : PState) : Option ParseErr :=
  groupCheckGo g st g.groups 0

/-- Initial parser state: all positional actions pending. -/
def initState (g : Grammar) : PState :=
  ⟨[], [], [], positionalIdxs g.actions 0, []⟩

/-- `parser.parse_args(argv, namespace=...)` for a generated grammar: runs
the token loop, the final zero-width positional consumption, the
required-action and required-group checks, and rejects leftover tokens
(`error: unrecognized arguments`).  On success the resulting destination
namespace (attribute list) is returned. -/
def parseTokens (g : Grammar) (argv : List String) :
    Except ParseErr (List (String × Value)) :=
  match parseLoop g argv.length (initState g) argv with
  | .error e => .error e
  | .ok st =>
    let st2 := endConsume g st
    match requiredActionsCheck g st2 with
    | some e => .error e
    | none =>
      match groupCheck g st2 with
      | some e => .error e
      | none =>
        if st2.extras.isEmpty then .ok st2.attrs
        else .error (.unrecognizedArguments st2.extras)

/-- Failures of the whole parse-and-bind pipeline:
  * `parse e`: an argparse error (usage printed; the process exits with 2),
  * `build m`: an `AssertionError` (or argparse registration conflict) while
    building the parser - an unhandled exception, process exit 1,
  * `binding m`: a `TypeError` from `signature.bind` - unhandled, exit 1,
  * `attrError n`: an `AttributeError` from `getattr(parsed, n)` - unhandled,
    exit 1,
  * `noCommand`: the command name is not in `command_specs` (a `KeyError`;
    `resolve_command` prevents this in the real flow). -/
inductive RunErr where
  | parse (e : ParseErr)
  | build (msg : String)
  | binding (msg : String)
  | attrError (name : String)
  | noCommand
deriving DecidableEq, Repr

/-- Process exit code produced by each pipeline failure when reached from
`main` (`src/clr/main.py` lines 79-116: `parse_args` runs outside the
command `try`, so argparse errors exit 2 and other exceptions exit 1 as
unhandled Python exceptions). -/
def RunErr.exitCode : RunErr → Nat
  | .parse e => e.exitCode
  | _ => 1

/-- Accumulator of `Namespace.parse_args`'s loop over parameters
(`commands.py` lines 183-198): the positional argument list, the keyword
argument mapping, and the `before_var_positional` flag. -/
structure CollectSt where
  args : List Value
  kwargs : List (String × Value)
  beforeVar : Bool
deriving Repr

/-- One step of the `parse_args` parameter loop (`commands.py`
lines 190-198): a `*args` parameter extends the positional list with its
captured tuple; parameters before it are passed positionally (`getattr`
raises `AttributeError` if unset - unreachable, the parser requires them);
other parameters are passed by keyword only when the user actually supplied
a value (`hasattr` check; defaults are left to `signature.bind`). -/
def collectStep (attrs : List (String × Value)) (st : CollectSt) (p : Param) :
    Except RunErr CollectSt :=
  if p.kind == .varPos then
    match lookupAttr attrs p.name with
    | some (.vtuple xs) => .ok {st with args := st.args ++ xs, beforeVar := false}
    | some _ => .error (.attrError p.name)
    | none => .error (.attrError p.name)
  else if st.beforeVar then
    match lookupAttr attrs p.name with
    | some v => .ok {st with args := st.args ++ [v]}
    | none => .error (.attrError p.name)
  else
    match lookupAttr attrs p.name with
    | some v => .ok {st with kwargs := st.kwargs ++ [(p.name, v)]}
    | none => .ok st

/-- Removes a bound keyword argument. -/
def removeKey (kw : List (String × Value)) (n : String) : List (String × Value) :=
  kw.filter (fun p => p.1 != n)

/-- `inspect.Signature.bind(*args, **kwargs)` followed by
`apply_defaults()` (`commands.py` lines 202-203): walks the parameters in
declaration order producing the complete name-to-value argument mapping, and
raises `TypeError` on arity or name mismatches.  (`varKw` is never reached:
`argument_parser` rejects `**kwargs` signatures before parsing.) -/
def bindGo : List Param → List Value → List (String × Value) →
    Except RunErr (List (String × Value))
  | [], [], kw =>
    if kw.isEmpty then .ok []
    else .error (.binding "got an unexpected keyword argument")
  | [], _ :: _, _ => .error (.binding "too many positional arguments")
  | p :: ps, args, kw =>
    match p.kind with
    | .posOrKw =>
      match args with
      | a :: restArgs =>
        if (lookupAttr kw p.name).isSome then
          .error (.binding ("multiple values for argument " ++ p.name))
        else
          match bindGo ps restArgs kw with
          | .error e => .error e
          | .ok tl => .ok ((p.name, a) :: tl)
      | [] =>
        match lookupAttr kw p.name with
        | some v =>
          match bindGo ps [] (removeKey kw p.name) with
          | .error e => .error e
          | .ok tl => .ok ((p.name, v) :: tl)
        | none =>
          match p.default with
          | some d =>
            match bindGo ps [] kw with
            | .error e => .error e
            | .ok tl => .ok ((p.name, d) :: tl)
          | none => .error (.binding ("missing a required argument: " ++ p.name))
    | .varPos =>
      match bindGo ps [] kw with
      | .error e => .error e
      | .ok tl => .ok ((p.name, .vtuple args) :: tl)
    | .kwOnly =>
      match lookupAttr kw p.name with
      | some v =>
        match bindGo ps args (removeKey kw p.name) with
        | .error e => .error e
        | .ok tl => .ok ((p.name, v) :: tl)
      | none =>
        match p.default with
        | some d =>
          match bindGo ps args kw with
          | .error e => .error e
          | .ok tl => .ok ((p.name, d) :: tl)
        | none =>
          .error (.binding ("missing a required keyword-only argument: " ++ p.name))
    | .varKw => .error (.binding "keyword capture is rejected before binding")

/-- `Namespace` (`commands.py` lines 156-170), restricted to the fields the
verified operations read (the live callables and instance are opaque to the
grammar and binder). -/
structure Namespace where
  key : String
  descr : String
  longdescr : String
  commandSpecs : List (String × CommandSpec)
deriving Repr

/-- Looks up a command's spec (`self.command_specs[command_name]`). -/
def lookupSpec (specs : List (String × CommandSpec)) (cmd : String) : Option CommandSpec :=
  (specs.find? (fun p => p.1 == cmd)).map (fun p => p.2)

/-- `argument_parser` as a function of the two pieces of state it reads,
`self.key` and `self.command_specs`.  `Namespace.argument_parser` is this
function, and line 442 of `commands.py` installs the very same function on
`NamespaceCacheEntry`. -/
def argumentParserOn (key : String) (specs : List (String × CommandSpec)) (cmd : String) :
    Except RunErr Grammar :=
  match lookupSpec specs cmd with
  | none => .error .noCommand
  | some spec =>
    match argumentParser key cmd spec with
    | .error m => .error (.build m)
    | .ok g => .ok g

/-- `Namespace.argument_parser(command_name)`. -/
def Namespace.argumentParser (ns : Namespace) (cmd : String) : Except RunErr Grammar :=
  argumentParserOn ns.key ns.commandSpecs cmd

/-- `Namespace.parse_args(command_name, argv)` (`commands.py`
lines 172-204): build the parser, parse the tokens into the none-ignoring
namespace, split the parsed attributes into positional and keyword call
arguments, and bind them against the signature with defaults applied.  The
result is the complete bound argument mapping in declaration order. -/
def Namespace.parseArgs (ns : Namespace) (cmd : String) (argv : List String) :
    Except RunErr (List (String × Value)) :=
  match lookupSpec ns.commandSpecs cmd with
  | none => .error .noCommand
  | some spec =>
    match Clr.argumentParser ns.key cmd spec with
    | .error m => .error (.build m)
    | .ok g =>
      match parseTokens g argv with
      | .error e => .error (.parse e)
      | .ok attrs =>
        match spec.signature.params.foldlM (collectStep attrs)
            (⟨[], [], spec.signature.hasVarPos⟩ : CollectSt) with
        | .error e => .error e
        | .ok cst => bindGo spec.signature.params cst.args cst.kwargs

/-- The signature of `System.cmd_argtest(self, a, b, c=4, d=None, e=False,
f=True)` (`commands.py` lines 750-752). -/
def argtestSpec : CommandSpec :=
  ⟨"For testing arg parsing.", ⟨[
    ⟨"a", .posOrKw, none⟩,
    ⟨"b", .posOrKw, none⟩,
    ⟨"c", .posOrKw, some (.vint 4)⟩,
    ⟨"d", .posOrKw, some .vnone⟩,
    ⟨"e", .posOrKw, some (.vbool false)⟩,
    ⟨"f", .posOrKw, some (.vbool true)⟩]⟩⟩

/-- The signature of `System.cmd_argtest2(self, a, b, *c, d=4, e=None,
f=False, g="")` (`commands.py` lines 754-756). -/
def argtest2Spec : CommandSpec :=
  ⟨"For testing arg parsing.", ⟨[
    ⟨"a", .posOrKw, none⟩,
    ⟨"b", .posOrKw, none⟩,
    ⟨"c", .varPos, none⟩,
    ⟨"d", .kwOnly, some (.vint 4)⟩,
    ⟨"e", .kwOnly, some .vnone⟩,
    ⟨"f", .kwOnly, some (.vbool false)⟩,
    ⟨"g", .kwOnly, some (.vstr "")⟩]⟩⟩

/-- The `system` namespace (`commands.py` class `System`, lines 514-756),
restricted to the two test commands the verified claims exercise; the other
`cmd_` methods of `System` are irrelevant to argument parsing and binding
and are not modelled. -/
def systemNamespace : Namespace :=
  ⟨"system", "clr built-in commands",
   "Namespace for system commands in the clr tool.",
   [("argtest", argtestSpec), ("argtest2", argtest2Spec)]⟩

/-- Insertion of a string into a sorted list (for Python `sorted`). -/
def insertSorted (x : String) : List String → List String
  | [] => [x]
  | y :: ys => if x ≤ y then x :: y :: ys else y :: insertSorted x ys

/-- Python `sorted` on a list of strings. -/
def insertionSort (l : List String) : List String := l.foldr insertSorted []

/-- `Namespace.commands` (`commands.py` lines 167-170): the sorted command
names. -/
def Namespace.commands (ns : Namespace) : List String :=
  insertionSort (ns.commandSpecs.map (fun p => p.1))

/-- The Command Spec extraction performed by `_load_namespace`
(`commands.py` lines 55-62): `CommandSpec(docstr, Signature.from_callable(
command_callable))`.  No validation of the signature happens here - every
callable (including one declaring `**kwargs`) is accepted into a
`CommandSpec`; the result type records that no failure path exists. -/
def extractCommandSpec (docstr : String) (sig : Sig) : Except String CommandSpec :=
  .ok ⟨docstr, sig⟩

/-- The signature of a callable `def f(a, **kwargs)` declaring a catch-all
keyword parameter. -/
def kwargsSig : Sig := ⟨[⟨"a", .posOrKw, none⟩, ⟨"kwargs", .varKw, none⟩]⟩

/-- `ErrorLoadingNamespace` (`commands.py` lines 396-421): the
pseudo-namespace substituted when importing a namespace module raises; it
carries the key and the original error. -/
structure ErrorLoadingNamespace where
  key : String
  error : String
deriving DecidableEq, Repr

/-- `ErrorLoadingNamespace.commands` (line 403-405): the empty tuple. -/
def ErrorLoadingNamespace.commands (_ : ErrorLoadingNamespace) : List String := []

/-- `ErrorLoadingNamespace.command_specs` (line 407-409): empty. -/
def ErrorLoadingNamespace.commandSpecs (_ : ErrorLoadingNamespace) :
    List (String × CommandSpec) := []

/-- `ErrorLoadingNamespace.descr` (lines 411-413). -/
def ErrorLoadingNamespace.descr (e : ErrorLoadingNamespace) : String :=
  "ERROR Could not load. See `clr help " ++ e.key ++ "`"

/-- What `get_namespace` can hand back: a loaded `Namespace` or an
`ErrorLoadingNamespace`. -/
inductive NsOrErr where
  | ns (n : Namespace)
  | errNs (e : ErrorLoadingNamespace)
deriving Repr

/-- The commands of either kind of namespace. -/
def NsOrErr.commands : NsOrErr → List String
  | .ns n => n.commands
  | .errNs e => e.commands

/-- `_load_namespace` for a non-`system` key (`commands.py` lines 37-71):
the module import and the introspection of its `COMMANDS` object are
external effects, modelled by the `importResult` argument (the `Namespace`
built from the module on success, the raised exception's message on
failure).  The failure case is captured - not propagated - as an
`ErrorLoadingNamespace` (lines 41-42). -/
def loadNamespace (importResult : String → Except String Namespace) (key : String) :
    NsOrErr :=
  match importResult key with
  | .error e => .errNs ⟨key, e⟩
  | .ok n => .ns n

/-- `get_namespace` (`commands.py` lines 74-79) acting on an explicit
registry (the module-level `__NAMESPACES` dict): on a miss the loader runs
and its result - including an `ErrorLoadingNamespace` - is stored in the
registry. -/
def getNamespaceReg (loader : String → NsOrErr) (registry : List (String × NsOrErr))
    (key : String) : NsOrErr × List (String × NsOrErr) :=
  match registry.find? (fun p => p.1 == key) with
  | some p => (p.2, registry)
  | none =>
    let n := loader key
    (n, registry ++ [(key, n)])

/-- `_get_close_matches` (`commands.py` lines 82-90).  The call
`difflib.get_close_matches(query, options, cutoff=0.4)` is an external
library call, supplied here as the `fuzzy` list; for a non-empty query the
result is extended with the sorted options that start with the query and are
not already present. -/
def getCloseMatches (fuzzy : List String) (query : String) (options : List String) :
    List String :=
  if query ≠ "" then
    fuzzy ++ insertionSort (options.filter (fun o => strStarts o query && !(fuzzy.contains o)))
  else fuzzy

/-- Python `query.split(":", 1)` when `":" in query`: the text before the
first colon and everything after it. -/
def splitColon (q : String) : Option (String × String) :=
  if q.data.contains ':' then
    let pre := q.data.takeWhile (fun c => c != ':')
    some (String.mk pre, String.mk (q.data.drop (pre.length + 1)))
  else none

/-- The namespace key and command name `resolve_command` derives from the
query before validation (`commands.py` lines 96-107): split at the first
colon if present; otherwise a bare system command name, or an unknown
namespace with an empty command name. -/
def resolveQuerySplit (systemCommands : List String) (q : String) : String × String :=
  match splitColon q with
  | some kc => kc
  | none =>
    if systemCommands.contains q then ("system", q) else (q, "")

/-- Outcome of `resolve_command` (`commands.py` lines 93-129).  The error
cases record what is printed - the close-match suggestions and the full
available set - and the `sys.exit(1)` status. -/
inductive ResolveOutcome where
  | ok (nsKey cmd : String)
  | badNamespace (nsKey : String) (suggestions available : List String) (exitCode : Nat)
  | badCommand (nsKey cmd : String) (suggestions available : List String) (exitCode : Nat)
deriving DecidableEq, Repr

/-- `resolve_command(query)`: `fuzzy` models the two
`difflib.get_close_matches` calls, `nsCommands key` the `commands` property
of the namespace fetched for `key` (from the cache or the registry). -/
def resolveCommand (fuzzy : String → List String → List String)
    (nsKeys systemCommands : List String) (nsCommands : String → List String)
    (query : String) : ResolveOutcome :=
  let kc := resolveQuerySplit systemCommands query
  if nsKeys.contains kc.1 then
    let cmds := nsCommands kc.1
    if cmds.contains kc.2 then .ok kc.1 kc.2
    else .badCommand kc.1 kc.2 (getCloseMatches (fuzzy kc.2 cmds) kc.2 cmds) cmds 1
  else
    .badNamespace kc.1 (getCloseMatches (fuzzy kc.1 nsKeys) kc.1 nsKeys) nsKeys 1

/-- `NamespaceCacheEntry` (`commands.py` lines 424-431): the pickle-able
projection of a `Namespace`. -/
structure NamespaceCacheEntry where
  key : String
  descr : String
  longdescr : String
  commandSpecs : List (String × CommandSpec)
deriving Repr

/-- `NamespaceCacheEntry.create(namespace)` (lines 433-437). -/
def NamespaceCacheEntry.create (n : Namespace) : NamespaceCacheEntry :=
  ⟨n.key, n.descr, n.longdescr, n.commandSpecs⟩

/-- Line 441 of `commands.py`: `NamespaceCacheEntry.commands =
Namespace.commands` - the same property reading the same field. -/
def NamespaceCacheEntry.commands (e : NamespaceCacheEntry) : List String :=
  insertionSort (e.commandSpecs.map (fun p => p.1))

/-- Line 442 of `commands.py`: `NamespaceCacheEntry.argument_parser =
Namespace.argument_parser` - the identical function body, reading `self.key`
and `self.command_specs`. -/
def NamespaceCacheEntry.argumentParser (e : NamespaceCacheEntry) (cmd : String) :
    Except RunErr Grammar :=
  argumentParserOn e.key e.commandSpecs cmd

/-- The state a `NamespaceCache` owns: the lazily loaded in-memory map
(`self.cache`, `none` before `_load_cache_if_needed` runs) and the on-disk
shelve contents. -/
structure CacheState where
  mem : Option (List (String × NamespaceCacheEntry))
  disk : List (String × NamespaceCacheEntry)
deriving Repr

/-- What `NamespaceCache.get` returns. -/
inductive CacheGot where
  | entry (e : NamespaceCacheEntry)
  | errNs (e : ErrorLoadingNamespace)
  | systemNs (n : NsOrErr)
deriving Repr

/-- `NamespaceCache.get` together with `_load_cache_if_needed` and
`_load_and_sync_entry` (`commands.py` lines 465-511): `system` is never
cached; otherwise the disk contents are loaded into memory once, a hit is
served from memory, and a miss loads the namespace through `loader`
(`get_namespace`).  An `ErrorLoadingNamespace` is returned *without* being
written to the in-memory map or the disk (lines 497-499); a real namespace
is projected to an entry and written to both (the disk write is best-effort,
modelled by `writeOk`). -/
def cacheGet (loader : String → NsOrErr) (writeOk : Bool) (st : CacheState)
    (key : String) : CacheGot × CacheState :=
  if key == "system" then (.systemNs (loader "system"), st)
  else
    let mem := st.mem.getD st.disk
    match (mem.find? (fun p => p.1 == key)) with
    | some p => (.entry p.2, ⟨some mem, st.disk⟩)
    | none =>
      match loader key with
      | .errNs e => (.errNs e, ⟨some mem, st.disk⟩)
      | .ns n =>
        let entry := NamespaceCacheEntry.create n
        (.entry entry,
         ⟨some (mem ++ [(key, entry)]),
          if writeOk then st.disk ++ [(key, entry)] else st.disk⟩)

/-- `print_for_complete` (`commands.py` lines 759-766): the options that
start with the current token, each suffixed with a space when `addSpace`. -/
def printForComplete (current : String) (options : List String) (addSpace : Bool) :
    List String :=
  let opts := options.filter (fun o => strStarts o current)
  if opts.isEmpty then []
  else if addSpace then opts.map (fun o => o ++ " ") else opts

/-- The flag list `System.cmd_complete_arg` computes into its local
`options` variable (`commands.py` lines 556-564): for every parameter
`--name` (unless `bools_only` and the parameter is not boolean), plus
`--noname` for boolean parameters. -/
def completeArgOptions (spec : CommandSpec) (boolsOnly : Bool) : List String :=
  spec.signature.params.foldl
    (fun acc p =>
      let isBool := match p.default with
        | some (.vbool _) => true
        | _ => false
      let acc2 := if !boolsOnly || isBool then acc ++ ["--" ++ p.name] else acc
      if isBool then acc2 ++ ["--no" ++ p.name] else acc2)
    []

/-- Runtime outcome of `System.cmd_complete_arg` (`commands.py`
lines 548-567) after command resolution succeeded.  The function builds the
local list `options` and then calls `print_for_complete(partial, results)` -
but no variable `results` is defined anywhere in the function, the class or
the module, so the call raises `NameError: name 'results' is not defined`
and nothing is printed.  The computed `options` list is evaluated first (its
construction cannot fail) and then discarded, exactly as in the source. -/
def cmdCompleteArg (spec : CommandSpec) (partialTok : String) (boolsOnly : Bool) :
    Except String (List String) :=
  let options := completeArgOptions spec boolsOnly
  let trimmed := pyStrip partialTok
  let _ := options
  let _ := trimmed
  .error "NameError: name 'results' is not defined"

/-- The output `cmd_complete_arg` was evidently intended to produce (and
what the claim asserts): the computed flags filtered to those extending the
partial token, as `print_for_complete(partial, options)` would print. -/
def cmdCompleteArgIntended (spec : CommandSpec) (partialTok : String) (boolsOnly : Bool) :
    List String :=
  printForComplete (pyStrip partialTok) (completeArgOptions spec boolsOnly) true

/-! ## Closed forms used by the quantified theorems

These definitions are not translations of source code; they are the explicit
shapes of command specs, grammars, token lists and parser states that the
quantified theorems below compute with. -/

/-- A parameter list of required positional-or-keyword parameters. -/
def reqParams (names : List String) : List Param :=
  names.map (fun n => ⟨n, .posOrKw, none⟩)

/-- The actions `argument_parser` emits for required parameters of a command
without a vararg: per parameter a required group with the `--name` flag and
the `nargs="?"` positional, group ids counting from `gb`. -/
def reqActs : List String → Nat → List Action
  | [], _ => []
  | n :: rest, gb =>
    ⟨n, .optVal .tstr, some gb⟩ :: ⟨n, .posOpt .tstr, some gb⟩ :: reqActs rest (gb + 1)

/-- The pending positional indices of `reqActs` placed at base index `b`:
`b+1, b+3, ...`. -/
def reqPosIdxs : List String → Nat → List Nat
  | [], _ => []
  | _ :: rest, b => (b + 1) :: reqPosIdxs rest (b + 2)

/-- The option-action indices of `reqActs` placed at base index `b`:
`b, b+2, ...`. -/
def optIdxs : List String → Nat → List Nat
  | [], _ => []
  | _ :: rest, b => b :: optIdxs rest (b + 2)

/-- The actions `argument_parser` emits for required parameters of a command
with a vararg: plain required positionals. -/
def reqActsVar (names : List String) : List Action :=
  names.map (fun n => ⟨n, .posOne, none⟩)

/-- The action kind `argument_parser` chooses for a `*args` parameter:
`argparse.REMAINDER` for `system:smart_complete`, `nargs="*"` otherwise
(`commands.py` lines 319-327). -/
def varActKind (key cmd : String) : ActKind :=
  if key == "system" && cmd == "smart_complete" then .posRem else .posStar

/-- The tokens supplying `values` for `names` purely as named flags, in
declaration order, using the `--name=value` form. -/
def namedTokens : List String → List String → List String
  | n :: ns, v :: vs => ("--" ++ n ++ "=" ++ v) :: namedTokens ns vs
  | _, _ => []

/-- The bound-argument list pairing each name with its string value. -/
def strBindings : List String → List String → List (String × Value)
  | n :: ns, v :: vs => (n, .vstr v) :: strBindings ns vs
  | _, _ => []

/-- `count` consecutive indices starting at `base`. -/
def seqIdxs : Nat → Nat → List Nat
  | 0, _ => []
  | n + 1, b => b :: seqIdxs n (b + 1)

/-- The grammar `argument_parser` builds for a command with required scalar
parameters followed by one boolean parameter `e` defaulting to `False`: the
required-parameter actions, then the `store_true`/`store_false` pair for `e`
in a non-required mutually exclusive group. -/
def boolGrammar (names : List String) (e : String) : Grammar :=
  ⟨reqActs names 0 ++ [⟨e, .optTrue, some names.length⟩,
                       ⟨e, .optFalse, some names.length⟩],
   List.replicate names.length true ++ [false]⟩

/-! ## Helper lemmas -/

theorem mem_insertSorted (x y : String) (l : List String) :
    x ∈ insertSorted y l ↔ x = y ∨ x ∈ l := by
  induction l with
  | nil => simp [insertSorted]
  | cons z zs ih =>
    by_cases h : y ≤ z
    · simp [insertSorted, h]
    · simp [insertSorted, h, ih]
      tauto

theorem mem_insertionSort (x : String) (l : List String) :
    x ∈ insertionSort l ↔ x ∈ l := by
  induction l with
  | nil => simp [insertionSort]
  | cons z zs ih =>
    simp only [insertionSort, List.foldr_cons] at *
    rw [mem_insertSorted, ih, List.mem_cons]

/-! ## C1 -/

/-- C1: end-to-end behaviour of `system:argtest`
(`cmd_argtest(self, a, b, c=4, d=None, e=False, f=True)`): parsing and
binding `["1","2"]` yields `a="1", b="2", c=4, d=None, e=False, f=True`;
`["1","2","3","4","--e"]` yields `a="1", b="2", c=3, d="4", e=True, f=True`
(`c` is coerced to `int` by its default's type, `d` stays a string because
its default is `None`; both print as the claim states); `["1"]` fails with
the missing-required error for `b`'s required group and process exit
code 2; `["11","2","--c=ccc"]` fails with the invalid-int error for `--c`
and process exit code 2. -/
theorem argtest_end_to_end :
    systemNamespace.parseArgs "argtest" ["1", "2"]
      = .ok [("a", .vstr "1"), ("b", .vstr "2"), ("c", .vint 4),
             ("d", .vnone), ("e", .vbool false), ("f", .vbool true)]
  ∧ systemNamespace.parseArgs "argtest" ["1", "2", "3", "4", "--e"]
      = .ok [("a", .vstr "1"), ("b", .vstr "2"), ("c", .vint 3),
             ("d", .vstr "4"), ("e", .vbool true), ("f", .vbool true)]
  ∧ systemNamespace.parseArgs "argtest" ["1"]
      = .error (.parse (.requiredGroupMissing ["--b", "b"]))
  ∧ (RunErr.parse (.requiredGroupMissing ["--b", "b"])).exitCode = 2
  ∧ systemNamespace.parseArgs "argtest" ["11", "2", "--c=ccc"]
      = .error (.parse (.invalidValue "--c" "int" "ccc"))
  ∧ (RunErr.parse (.invalidValue "--c" "int" "ccc")).exitCode = 2 :=
  ⟨rfl, rfl, rfl, rfl, rfl, rfl⟩

/-! ## C5 -/

/-- C5: the cached projection loses nothing the grammar builder reads - for
every namespace and command name, the argument grammar built from the
`NamespaceCacheEntry` projection (key, descriptions, command specs) is
identical to the one built from the live `Namespace`, and the command list
agrees as well.  (`commands.py` line 442 installs the identical
`argument_parser` function on the entry class; `create` copies `key` and
`command_specs` unchanged, so the grammar - parameter ordering, kinds and
defaults included - coincides definitionally.) -/
theorem cache_entry_grammar_roundtrip (ns : Namespace) (cmd : String) :
    (NamespaceCacheEntry.create ns).argumentParser cmd = ns.argumentParser cmd
  ∧ (NamespaceCacheEntry.create ns).commands = ns.commands :=
  ⟨rfl, rfl⟩

/-! ## C9 -/

/-- C9 (code bug): `System.cmd_complete_arg` computes the flag list into the
local variable `options` (for `argtest`: `--a --b --c --d --e --noe --f
--nof`, with `--noe`/`--nof` added for the boolean parameters), but then
calls `print_for_complete(partial, results)` where no variable `results`
exists in any enclosing scope, so every invocation raises `NameError`
instead of listing the flags; the intended output (the claim's behaviour)
would have been the computed flags filtered by the partial token. -/
theorem complete_arg_name_error :
    cmdCompleteArg argtestSpec "" false
      = .error "NameError: name 'results' is not defined"
  ∧ completeArgOptions argtestSpec false
      = ["--a", "--b", "--c", "--d", "--e", "--noe", "--f", "--nof"]
  ∧ cmdCompleteArgIntended argtestSpec "" false
      = ["--a ", "--b ", "--c ", "--d ", "--e ", "--noe ", "--f ", "--nof "] :=
  ⟨rfl, rfl, rfl⟩

/-! ## C6 -/

theorem buildParam_varKw_error (hv sm : Bool) (st : BuildSt) (p : Param)
    (hk : p.kind = .varKw) :
    ∃ m, buildParam hv sm st p = .error m := by
  cases hd : p.default <;>
    cases hbv : st.beforeVar <;>
      simp [buildParam, hk, hd, hbv]

theorem foldlM_buildParam_varKw (hv sm : Bool) (ps : List Param) :
    ∀ st : BuildSt,
      ps.any (fun p => p.kind == .varKw) = true →
      ∃ m, ps.foldlM (buildParam hv sm) st = .error m := by
  induction ps with
  | nil => intro st h; simp at h
  | cons p rest ih =>
    intro st hany
    by_cases hk : p.kind = .varKw
    · obtain ⟨m, hm⟩ := buildParam_varKw_error hv sm st p hk
      refine ⟨m, ?_⟩
      simp only [List.foldlM, hm]
      rfl
    · have hr : rest.any (fun p => p.kind == .varKw) = true := by
        simp only [List.any_cons, Bool.or_eq_true, beq_iff_eq] at hany
        rcases hany with h | h
        · exact absurd h hk
        · simpa using h
      cases hb : buildParam hv sm st p with
      | error m =>
        refine ⟨m, ?_⟩
        simp only [List.foldlM, hb]
        rfl
      | ok st2 =>
        obtain ⟨m, hm⟩ := ih st2 hr
        refine ⟨m, ?_⟩
        simp only [List.foldlM, hb]
        exact hm

/-- C6 (counterexample): the claim says a callable declaring `**kwargs`
fails *at extraction time* with an error; but `_load_namespace`
(`commands.py` lines 55-62) builds the `CommandSpec` with no validation at
all, so the callable `def f(a, **kwargs)` is accepted into a Command Spec. -/
theorem kwargs_extraction_accepts :
    extractCommandSpec "" kwargsSig = .ok ⟨"", kwargsSig⟩ := rfl

/-- C6 (amended): a callable declaring a catch-all keyword parameter is
accepted into a Command Spec at extraction time; the rejection happens later,
when the argument grammar is built - `argument_parser` raises an
`AssertionError` for every spec whose parameter list contains a
`VAR_KEYWORD` parameter (`commands.py` lines 328-340). -/
theorem kwargs_rejected_at_grammar_build (key cmd : String) (spec : CommandSpec)
    (h : spec.signature.params.any (fun p => p.kind == .varKw) = true) :
    ∃ m, argumentParser key cmd spec = .error m := by
  obtain ⟨m, hm⟩ :=
    foldlM_buildParam_varKw
      (spec.signature.params.any (fun p => p.kind == .varPos))
      (key == "system" && cmd == "smart_complete")
      spec.signature.params
      ⟨[], [], spec.signature.params.any (fun p => p.kind == .varPos)⟩ h
  exact ⟨m, by simp [argumentParser, hm]⟩

/-- C6 (witness): the amended theorem applied to `def f(a, **kwargs)`. -/
theorem kwargs_rejected_at_grammar_build_witness :
    (kwargsSig.params.any (fun p => p.kind == .varKw) = true)
  ∧ ∃ m, argumentParser "system" "argtest" ⟨"", kwargsSig⟩ = .error m :=
  ⟨rfl, kwargs_rejected_at_grammar_build "system" "argtest" ⟨"", kwargsSig⟩ rfl⟩

/-! ## C7 -/

theorem contains_colon_append (l1 l2 : List Char) :
    (l1 ++ ':' :: l2).contains ':' = true := by
  have : ':' ∈ l1 ++ ':' :: l2 := by simp
  exact List.elem_eq_true_of_mem this

theorem takeWhile_colon_append (l1 l2 : List Char)
    (h : l1.all (fun c => c != ':') = true) :
    (l1 ++ ':' :: l2).takeWhile (fun c => c != ':') = l1 := by
  induction l1 with
  | nil => simp [List.takeWhile]
  | cons c cs ih =>
    simp only [List.all_cons, Bool.and_eq_true] at h
    simp [List.takeWhile, h.1, ih h.2]

theorem splitColon_append (key cmd : String)
    (h : key.data.all (fun c => c != ':') = true) :
    splitColon (key ++ ":" ++ cmd) = some (key, cmd) := by
  have hd : (key ++ ":" ++ cmd).data = key.data ++ ':' :: cmd.data := by
    simp [String.data_append]
  have hdrop : (key.data ++ ':' :: cmd.data).drop (key.data.length + 1) = cmd.data := by
    have h1 : key.data ++ ':' :: cmd.data = (key.data ++ [':']) ++ cmd.data := by simp
    have hlen : (key.data ++ [':']).length = key.data.length + 1 := by simp
    rw [h1, ← hlen, List.drop_left]
  simp only [splitColon, hd, contains_colon_append,
    takeWhile_colon_append key.data cmd.data h, if_true]
  have hmk1 : String.mk key.data = key := rfl
  have hmk2 : String.mk cmd.data = cmd := rfl
  rw [hdrop, hmk1, hmk2]

theorem resolveQuerySplit_colon (sysCmds : List String) (key cmd : String)
    (h : key.data.all (fun c => c != ':') = true) :
    resolveQuerySplit sysCmds (key ++ ":" ++ cmd) = (key, cmd) := by
  unfold resolveQuerySplit
  rw [splitColon_append key cmd h]

/-- C7: when importing a namespace module raises, `get_namespace` returns -
and stores in the registry in place of the real namespace - an
`ErrorLoadingNamespace` that carries the original failure; the exception is
not propagated (the registry operation is total and yields the error
namespace as an ordinary value).  That pseudo-namespace has zero commands
and empty command specs while its description (used by `clr help` listings)
stays available, and any attempt to execute a command from it fails:
`resolve_command` on `key:cmd` reports an unknown command and exits 1. -/
theorem failed_import_error_namespace
    (importResult : String → Except String Namespace)
    (reg : List (String × NsOrErr)) (key e : String)
    (hreg : reg.find? (fun p => p.1 == key) = none)
    (himp : importResult key = .error e) :
    getNamespaceReg (loadNamespace importResult) reg key
      = (.errNs ⟨key, e⟩, reg ++ [(key, .errNs ⟨key, e⟩)])
  ∧ ErrorLoadingNamespace.commands ⟨key, e⟩ = []
  ∧ ErrorLoadingNamespace.commandSpecs ⟨key, e⟩ = []
  ∧ ErrorLoadingNamespace.descr ⟨key, e⟩
      = "ERROR Could not load. See `clr help " ++ key ++ "`"
  ∧ ErrorLoadingNamespace.error ⟨key, e⟩ = e
  ∧ ∀ (fuzzy : String → List String → List String)
      (nsKeys sysCmds : List String) (nsCommands : String → List String)
      (cmd : String),
      nsKeys.contains key = true →
      key.data.all (fun c => c != ':') = true →
      nsCommands key = ErrorLoadingNamespace.commands ⟨key, e⟩ →
      ∃ sugg,
        resolveCommand fuzzy nsKeys sysCmds nsCommands (key ++ ":" ++ cmd)
          = .badCommand key cmd sugg [] 1 ∧ (1 : Nat) ≠ 0 := by
  refine ⟨?_, rfl, rfl, rfl, rfl, ?_⟩
  · simp [getNamespaceReg, hreg, loadNamespace, himp]
  · intro fuzzy nsKeys sysCmds nsCommands cmd hkeys hkey hcmds
    refine ⟨getCloseMatches (fuzzy cmd (nsCommands key)) cmd (nsCommands key), ?_, ?_⟩
    · simp only [resolveCommand, resolveQuerySplit_colon sysCmds key cmd hkey,
        hkeys, hcmds, ErrorLoadingNamespace.commands]
      simp [List.contains, List.elem, hcmds, ErrorLoadingNamespace.commands]
    · exact one_ne_zero

/-- C7 (witness): a concrete failing import for namespace `myns`. -/
theorem failed_import_error_namespace_witness :
    getNamespaceReg
        (loadNamespace (fun _ => .error "ImportError: boom")) [] "myns"
      = (.errNs ⟨"myns", "ImportError: boom"⟩,
         [("myns", .errNs ⟨"myns", "ImportError: boom"⟩)])
  ∧ ErrorLoadingNamespace.commands ⟨"myns", "ImportError: boom"⟩ = []
  ∧ ∃ sugg,
      resolveCommand (fun _ _ => []) ["myns", "system"] ["help"] (fun _ => [])
          ("myns" ++ ":" ++ "run")
        = .badCommand "myns" "run" sugg [] 1 ∧ (1 : Nat) ≠ 0 := by
  have h := failed_import_error_namespace (fun _ => .error "ImportError: boom")
    [] "myns" "ImportError: boom" rfl rfl
  refine ⟨by simpa using h.1, h.2.1, ?_⟩
  exact h.2.2.2.2.2 (fun _ _ => []) ["myns", "system"] ["help"] (fun _ => [])
    "run" rfl rfl rfl

/-! ## C8 -/

/-- C8: for every query whose derived namespace key is not among the known
namespace keys, `resolve_command` prints the close-match suggestions
alongside the full set of available namespaces and exits with status 1
(non-zero); and the suggestion list contains every known namespace whose
name has the (non-empty) query key as a prefix, regardless of what the
fuzzy `difflib` matcher returned - `_get_close_matches` appends all sorted
prefix matches not already present (`commands.py` lines 86-89). -/
theorem unknown_namespace_suggestions
    (fuzzy : String → List String → List String)
    (nsKeys sysCmds : List String) (nsCommands : String → List String)
    (query nsKey cmd o : String)
    (hsplit : resolveQuerySplit sysCmds query = (nsKey, cmd))
    (hmiss : nsKeys.contains nsKey = false)
    (hne : nsKey ≠ "")
    (ho : o ∈ nsKeys)
    (hpre : strStarts o nsKey = true) :
    resolveCommand fuzzy nsKeys sysCmds nsCommands query
      = .badNamespace nsKey (getCloseMatches (fuzzy nsKey nsKeys) nsKey nsKeys) nsKeys 1
  ∧ o ∈ getCloseMatches (fuzzy nsKey nsKeys) nsKey nsKeys
  ∧ (1 : Nat) ≠ 0 := by
  refine ⟨?_, ?_, one_ne_zero⟩
  · have hmem : nsKey ∉ nsKeys := by simpa using hmiss
    simp [resolveCommand, hsplit, hmem]
  · unfold getCloseMatches
    rw [if_pos hne]
    by_cases hf : o ∈ fuzzy nsKey nsKeys
    · exact List.mem_append_left _ hf
    · refine List.mem_append_right _ ?_
      rw [mem_insertionSort]
      refine List.mem_filter.mpr ⟨ho, ?_⟩
      have hc : (fuzzy nsKey nsKeys).contains o = false := by
        cases hco : (fuzzy nsKey nsKeys).contains o with
        | false => rfl
        | true => exact absurd (List.mem_of_elem_eq_true hco) hf
      simp [hpre, hc, hf]

/-- C8 (witness): query `sys` against namespaces `other` and `system`, with
an empty fuzzy-match list: `system` starts with `sys` and is suggested. -/
theorem unknown_namespace_suggestions_witness :
    resolveCommand (fun _ _ => []) ["other", "system"] ["help"] (fun _ => []) "sys"
      = .badNamespace "sys" (getCloseMatches [] "sys" ["other", "system"])
          ["other", "system"] 1
  ∧ "system" ∈ getCloseMatches [] "sys" ["other", "system"]
  ∧ (1 : Nat) ≠ 0 :=
  unknown_namespace_suggestions (fun _ _ => []) ["other", "system"] ["help"]
    (fun _ => []) "sys" "sys" "" "system" rfl rfl (by decide)
    (by simp) rfl

/-! ## C10 -/

/-- C10: the metadata cache never stores a failed load - when
`NamespaceCache.get` misses and the loader (`get_namespace`) produces an
`ErrorLoadingNamespace`, the error namespace is returned while the
in-memory map gains no entry for the key and the on-disk store is left
untouched, so a subsequent `get` for the same key misses again and re-runs
the load path, returning whatever the loader produces then
(`commands.py` lines 495-499: "Don't cache errors"). -/
theorem cache_does_not_store_errors
    (loader : String → NsOrErr) (writeOk : Bool) (st : CacheState)
    (key : String) (E : ErrorLoadingNamespace)
    (hks : (key == "system") = false)
    (hload : loader key = .errNs E)
    (hmiss : (st.mem.getD st.disk).find? (fun p => p.1 == key) = none) :
    (cacheGet loader writeOk st key).1 = .errNs E
  ∧ (cacheGet loader writeOk st key).2.disk = st.disk
  ∧ ((cacheGet loader writeOk st key).2.mem.getD
        (cacheGet loader writeOk st key).2.disk).find? (fun p => p.1 == key) = none
  ∧ cacheGet loader writeOk (cacheGet loader writeOk st key).2 key
      = (.errNs E, (cacheGet loader writeOk st key).2) := by
  have hget : cacheGet loader writeOk st key
      = (.errNs E, ⟨some (st.mem.getD st.disk), st.disk⟩) := by
    simp [cacheGet, hks, hmiss, hload]
  refine ⟨by rw [hget], by rw [hget], ?_, ?_⟩
  · rw [hget]
    simpa using hmiss
  · rw [hget]
    simp [cacheGet, hks, hmiss, hload]

/-- C10 (witness): a loader that always fails, an unloaded cache with an
empty disk store, key `foo`. -/
theorem cache_does_not_store_errors_witness :
    (cacheGet (fun k => .errNs ⟨k, "boom"⟩) true ⟨none, []⟩ "foo").1
      = .errNs ⟨"foo", "boom"⟩
  ∧ (cacheGet (fun k => .errNs ⟨k, "boom"⟩) true ⟨none, []⟩ "foo").2.disk = []
  ∧ ((cacheGet (fun k => .errNs ⟨k, "boom"⟩) true ⟨none, []⟩ "foo").2.mem.getD
        (cacheGet (fun k => .errNs ⟨k, "boom"⟩) true ⟨none, []⟩ "foo").2.disk).find?
        (fun p => p.1 == "foo") = none
  ∧ cacheGet (fun k => .errNs ⟨k, "boom"⟩) true
        (cacheGet (fun k => .errNs ⟨k, "boom"⟩) true ⟨none, []⟩ "foo").2 "foo"
      = (.errNs ⟨"foo", "boom"⟩,
         (cacheGet (fun k => .errNs ⟨k, "boom"⟩) true ⟨none, []⟩ "foo").2) := by
  have h := cache_does_not_store_errors (fun k => .errNs ⟨k, "boom"⟩) true
    ⟨none, []⟩ "foo" ⟨"foo", "boom"⟩ rfl rfl rfl
  exact ⟨h.1, by simpa using h.2.1, h.2.2.1, h.2.2.2⟩

/-! ## Infrastructure for the quantified grammar/parse theorems (C2, C3, C4) -/

theorem reqActs_length (names : List String) (gb : Nat) :
    (reqActs names gb).length = 2 * names.length := by
  induction names generalizing gb with
  | nil => simp [reqActs]
  | cons n rest ih => simp [reqActs, ih]; omega

theorem reqPosIdxs_length (names : List String) (b : Nat) :
    (reqPosIdxs names b).length = names.length := by
  induction names generalizing b with
  | nil => simp [reqPosIdxs]
  | cons n rest ih => simp [reqPosIdxs, ih]

theorem namedTokens_length (names values : List String)
    (hlen : names.length = values.length) :
    (namedTokens names values).length = names.length := by
  induction names generalizing values with
  | nil => simp [namedTokens]
  | cons n rest ih =>
    cases values with
    | nil => simp at hlen
    | cons v vs =>
      simp only [List.length_cons, Nat.add_right_cancel_iff] at hlen
      simp [namedTokens, ih vs hlen]

theorem strBindings_keys (names values : List String)
    (hlen : names.length = values.length) :
    (strBindings names values).map (fun p => p.1) = names := by
  induction names generalizing values with
  | nil => simp [strBindings]
  | cons n rest ih =>
    cases values with
    | nil => simp at hlen
    | cons v vs =>
      simp only [List.length_cons, Nat.add_right_cancel_iff] at hlen
      simp [strBindings, ih vs hlen]

theorem sumList_replicate_one (n : Nat) : sumList (List.replicate n 1) = n := by
  induction n with
  | zero => simp [sumList]
  | succ k ih =>
    simp [List.replicate, sumList, ih]
    omega

theorem takeWhile_all_true (p : String → Bool) (l : List String)
    (h : ∀ x ∈ l, p x = true) : l.takeWhile p = l := by
  induction l with
  | nil => rfl
  | cons x xs ih =>
    have hx := h x (by simp)
    simp [List.takeWhile, hx, ih (fun y hy => h y (by simp [hy]))]

theorem takeWhile_append_stop (p : String → Bool) (l1 : List String) (x : String)
    (l2 : List String) (h1 : ∀ y ∈ l1, p y = true) (hx : p x = false) :
    (l1 ++ x :: l2).takeWhile p = l1 := by
  induction l1 with
  | nil => simp [List.takeWhile, hx]
  | cons y ys ih =>
    have hy := h1 y (by simp)
    simp [List.takeWhile, hy, ih (fun z hz => h1 z (by simp [hz]))]

theorem listNodup_iff (l : List String) : listNodup l = true ↔ l.Nodup := by
  induction l with
  | nil => simp [listNodup]
  | cons s rest ih =>
    simp [listNodup, ih, List.nodup_cons]

theorem dashdash_injective (a b : String) (h : "--" ++ a = "--" ++ b) : a = b := by
  have hd := congrArg String.data h
  simp only [String.data_append] at hd
  have h2 : a.data = b.data := List.append_cancel_left hd
  cases a; cases b
  exact congrArg String.mk h2

theorem positionalIdxs_append (X Y : List Action) (b : Nat) :
    positionalIdxs (X ++ Y) b = positionalIdxs X b ++ positionalIdxs Y (b + X.length) := by
  induction X generalizing b with
  | nil => simp [positionalIdxs]
  | cons a rest ih =>
    have harith : b + 1 + rest.length = b + (rest.length + 1) := by omega
    by_cases ha : a.isPositional
    · simp [positionalIdxs, ha, ih (b + 1), harith]
    · simp only [Bool.not_eq_true] at ha
      simp [positionalIdxs, ha, ih (b + 1), harith]

theorem positionalIdxs_reqActs (names : List String) (gb b : Nat) :
    positionalIdxs (reqActs names gb) b = reqPosIdxs names b := by
  induction names generalizing gb b with
  | nil => simp [reqActs, positionalIdxs, reqPosIdxs]
  | cons n rest ih =>
    simp [reqActs, positionalIdxs, Action.isPositional, reqPosIdxs, ih]

theorem optionStringsOf_reqActs (names : List String) (gb : Nat) :
    optionStringsOf (reqActs names gb) = names.map (fun n => "--" ++ n) := by
  induction names generalizing gb with
  | nil => simp [reqActs, optionStringsOf]
  | cons n rest ih =>
    simpa [reqActs, optionStringsOf, List.filterMap_cons, Action.optionString]
      using ih (gb + 1)

theorem reqParams_no_varPos (names : List String) :
    (reqParams names).any (fun p => p.kind == .varPos) = false := by
  induction names with
  | nil => simp [reqParams]
  | cons n rest ih => simp [reqParams]

theorem foldlM_buildParam_req (sm : Bool) (names : List String) :
    ∀ st : BuildSt, st.beforeVar = false →
      (reqParams names).foldlM (buildParam false sm) st
        = .ok ⟨st.acts ++ reqActs names st.grps.length,
               st.grps ++ List.replicate names.length true, false⟩ := by
  induction names with
  | nil =>
    intro st hbv
    cases st with
    | mk a g bv =>
      simp only at hbv
      subst hbv
      simp [reqParams, reqActs, List.replicate]
      rfl
  | cons n rest ih =>
    intro st hbv
    have hstep : buildParam false sm st ⟨n, .posOrKw, none⟩
        = .ok ⟨st.acts ++ [⟨n, .optVal .tstr, some st.grps.length⟩,
                           ⟨n, .posOpt .tstr, some st.grps.length⟩],
               st.grps ++ [true], false⟩ := by
      simp [buildParam, hbv]
    simp only [reqParams, List.map_cons, List.foldlM, hstep]
    have ih2 := ih ⟨st.acts ++ [⟨n, .optVal .tstr, some st.grps.length⟩,
                                ⟨n, .posOpt .tstr, some st.grps.length⟩],
                    st.grps ++ [true], false⟩ rfl
    have hfinal : (⟨(st.acts ++ [⟨n, .optVal .tstr, some st.grps.length⟩,
          ⟨n, .posOpt .tstr, some st.grps.length⟩])
            ++ reqActs rest (st.grps ++ [true]).length,
          (st.grps ++ [true]) ++ List.replicate rest.length true, false⟩ : BuildSt)
        = ⟨st.acts ++ reqActs (n :: rest) st.grps.length,
           st.grps ++ List.replicate (n :: rest).length true, false⟩ := by
      simp [reqActs, List.replicate_succ]
    exact ih2.trans (congrArg Except.ok hfinal)

theorem getD_append_left {α : Type} (l1 l2 : List α) (n : Nat) (d : α)
    (h : n < l1.length) : (l1 ++ l2).getD n d = l1.getD n d := by
  induction l1 generalizing n with
  | nil => simp at h
  | cons a rest ih =>
    cases n with
    | zero => rfl
    | succ k =>
      simp only [List.cons_append, List.getD_cons_succ]
      exact ih k (by simpa using h)

theorem getD_append_right2 {α : Type} (l1 l2 : List α) (n : Nat) (d : α)
    (h : l1.length ≤ n) : (l1 ++ l2).getD n d = l2.getD (n - l1.length) d := by
  induction l1 generalizing n with
  | nil => simp
  | cons a rest ih =>
    cases n with
    | zero => simp at h
    | succ k =>
      simp only [List.cons_append, List.getD_cons_succ, List.length_cons]
      rw [ih k (by simpa using h)]
      congr 1
      omega

/-- C2-family grammar: the parser for a spec with only required
positional-or-keyword parameters. -/
theorem argumentParser_req (key cmd docstr : String) (names : List String)
    (hnd : names.Nodup) :
    argumentParser key cmd ⟨docstr, ⟨reqParams names⟩⟩
      = .ok ⟨reqActs names 0, List.replicate names.length true⟩ := by
  have hnodup : listNodup (optionStringsOf (reqActs names 0)) = true := by
    rw [optionStringsOf_reqActs, listNodup_iff]
    exact hnd.map (fun a b h => dashdash_injective a b h)
  simp only [argumentParser, reqParams_no_varPos,
    foldlM_buildParam_req _ names ⟨[], [], false⟩ rfl]
  simp [hnodup]

theorem optionStringsOf_append (A B : List Action) :
    optionStringsOf (A ++ B) = optionStringsOf A ++ optionStringsOf B := by
  simp [optionStringsOf, List.filterMap_append]

theorem dashdash_ne_dashno (eName : String) : "--" ++ eName ≠ "--no" ++ eName := by
  intro h
  have hd := congrArg String.data h
  simp only [String.data_append] at hd
  have hlen : ("--".data ++ eName.data).length = ("--no".data ++ eName.data).length := by
    rw [hd]
  simp only [List.length_append] at hlen
  have e1 : "--".data.length = 2 := rfl
  have e2 : "--no".data.length = 4 := rfl
  rw [e1, e2] at hlen
  omega

/-- C3-family grammar: required parameters followed by one boolean optional
parameter with default `False`. -/
theorem argumentParser_req_bool (key cmd docstr eName : String) (names : List String)
    (hnd : names.Nodup) (he : eName ∉ names) (hnoe : ("no" ++ eName) ∉ names) :
    argumentParser key cmd
        ⟨docstr, ⟨reqParams names ++ [⟨eName, .posOrKw, some (.vbool false)⟩]⟩⟩
      = .ok ⟨reqActs names 0
              ++ [⟨eName, .optTrue, some names.length⟩,
                  ⟨eName, .optFalse, some names.length⟩],
             List.replicate names.length true ++ [false]⟩ := by
  have hvar : (reqParams names ++ [(⟨eName, .posOrKw, some (.vbool false)⟩ : Param)]).any
      (fun p => p.kind == .varPos) = false := by
    simp [List.any_append, reqParams_no_varPos]
  have hne : "--" ++ eName ≠ "--no" ++ eName := dashdash_ne_dashno eName
  have hnodup : listNodup (optionStringsOf (reqActs names 0
      ++ [⟨eName, .optTrue, some names.length⟩,
          ⟨eName, .optFalse, some names.length⟩])) = true := by
    rw [listNodup_iff]
    have hsplit2 : optionStringsOf (reqActs names 0
        ++ [⟨eName, .optTrue, some names.length⟩,
            ⟨eName, .optFalse, some names.length⟩])
        = names.map (fun n => "--" ++ n) ++ ["--" ++ eName, "--no" ++ eName] := by
      rw [optionStringsOf_append, optionStringsOf_reqActs]
      rfl
    rw [hsplit2, List.nodup_append]
    refine ⟨hnd.map (fun a b h => dashdash_injective a b h), ?_, ?_⟩
    · simp [hne]
    · intro x hx
      obtain ⟨n, hn, rfl⟩ := List.mem_map.mp hx
      intro hmem
      simp only [List.mem_cons, List.not_mem_nil, or_false] at hmem
      rcases hmem with h1 | h1
      · exact he (dashdash_injective n eName h1 ▸ hn)
      · have h2 : "--" ++ n = "--" ++ ("no" ++ eName) := by
          rw [h1]
          cases eName
          rfl
        exact hnoe (dashdash_injective n ("no" ++ eName) h2 ▸ hn)
  have hstep : buildParam false
      (key == "system" && cmd == "smart_complete")
      ⟨reqActs names 0, List.replicate names.length true, false⟩
      ⟨eName, .posOrKw, some (.vbool false)⟩
      = .ok ⟨reqActs names 0
              ++ [⟨eName, .optTrue, some names.length⟩,
                  ⟨eName, .optFalse, some names.length⟩],
             List.replicate names.length true ++ [false], false⟩ := by
    simp [buildParam]
  simp only [argumentParser, hvar, List.foldlM_append,
    foldlM_buildParam_req _ names ⟨[], [], false⟩ rfl]
  simp only [List.nil_append, List.length_nil]
  rw [show ((Except.ok (⟨reqActs names 0, List.replicate names.length true, false⟩ : BuildSt)
      >>= fun b' => List.foldlM (buildParam false (key == "system" && cmd == "smart_complete"))
        b' [⟨eName, .posOrKw, some (.vbool false)⟩])
      : Except String BuildSt)
    = List.foldlM (buildParam false (key == "system" && cmd == "smart_complete"))
        (⟨reqActs names 0, List.replicate names.length true, false⟩ : BuildSt)
        [⟨eName, .posOrKw, some (.vbool false)⟩] from rfl]
  simp only [List.foldlM_cons, hstep, List.foldlM_nil]
  simp [hnodup]

theorem reqParams_fold_var (sm : Bool) (names : List String) :
    ∀ st : BuildSt, st.beforeVar = true →
      (reqParams names).foldlM (buildParam true sm) st
        = .ok ⟨st.acts ++ reqActsVar names, st.grps, true⟩ := by
  induction names with
  | nil =>
    intro st hbv
    cases st with
    | mk a g bv =>
      simp only at hbv
      subst hbv
      simp [reqParams, reqActsVar]
      rfl
  | cons n rest ih =>
    intro st hbv
    have hstep : buildParam true sm st ⟨n, .posOrKw, none⟩
        = .ok ⟨st.acts ++ [⟨n, .posOne, none⟩], st.grps, true⟩ := by
      simp [buildParam, hbv]
    simp only [reqParams, List.map_cons, List.foldlM, hstep]
    have ih2 := ih ⟨st.acts ++ [⟨n, .posOne, none⟩], st.grps, true⟩ rfl
    have hfinal : (⟨(st.acts ++ [⟨n, .posOne, none⟩]) ++ reqActsVar rest,
          st.grps, true⟩ : BuildSt)
        = ⟨st.acts ++ reqActsVar (n :: rest), st.grps, true⟩ := by
      simp [reqActsVar]
    exact ih2.trans (congrArg Except.ok hfinal)

/-- C4-family grammar: required parameters followed by a `*args` parameter. -/
theorem argumentParser_var (key cmd docstr vName : String) (names : List String) :
    argumentParser key cmd ⟨docstr, ⟨reqParams names ++ [⟨vName, .varPos, none⟩]⟩⟩
      = .ok ⟨reqActsVar names ++ [⟨vName, varActKind key cmd, none⟩], []⟩ := by
  have hvar : (reqParams names ++ [(⟨vName, .varPos, none⟩ : Param)]).any
      (fun p => p.kind == .varPos) = true := by
    simp [List.any_append]
  have hstep : buildParam true (key == "system" && cmd == "smart_complete")
      ⟨reqActsVar names, [], true⟩ ⟨vName, .varPos, none⟩
      = .ok ⟨reqActsVar names ++ [⟨vName, varActKind key cmd, none⟩], [], false⟩ := by
    simp [buildParam, varActKind]
  have hnodup : listNodup (optionStringsOf
      (reqActsVar names ++ [⟨vName, varActKind key cmd, none⟩])) = true := by
    have hempty : optionStringsOf
        (reqActsVar names ++ [⟨vName, varActKind key cmd, none⟩]) = [] := by
      unfold optionStringsOf
      rw [List.filterMap_append]
      have h1 : (reqActsVar names).filterMap Action.optionString = [] := by
        induction names with
        | nil => simp [reqActsVar]
        | cons n rest ih => simp_all [reqActsVar, Action.optionString]
      have h2 : ([⟨vName, varActKind key cmd, none⟩] : List Action).filterMap
          Action.optionString = [] := by
        unfold varActKind
        by_cases hsm : (key == "system" && cmd == "smart_complete") = true <;>
          simp [hsm, Action.optionString]
      rw [h1, h2]
      rfl
    rw [hempty]
    rfl
  simp only [argumentParser, hvar, List.foldlM_append,
    reqParams_fold_var _ names ⟨[], [], true⟩ rfl]
  simp only [List.nil_append]
  rw [show ((Except.ok (⟨reqActsVar names, [], true⟩ : BuildSt)
      >>= fun b' => List.foldlM (buildParam true (key == "system" && cmd == "smart_complete"))
        b' [⟨vName, .varPos, none⟩]) : Except String BuildSt)
    = List.foldlM (buildParam true (key == "system" && cmd == "smart_complete"))
        (⟨reqActsVar names, [], true⟩ : BuildSt) [⟨vName, .varPos, none⟩] from rfl]
  simp only [List.foldlM_cons, hstep, List.foldlM_nil]
  simp [hnodup]

theorem act_decomp_req_head (g : Grammar) (A B : List Action) (n : String)
    (rest : List String) (gb : Nat)
    (hg : g.actions = A ++ reqActs (n :: rest) gb ++ B) :
    g.act A.length = ⟨n, .optVal .tstr, some gb⟩
  ∧ g.act (A.length + 1) = ⟨n, .posOpt .tstr, some gb⟩ := by
  have hlen : A.length + 1 < (A ++ reqActs (n :: rest) gb).length := by
    simp [reqActs_length]
    omega
  constructor
  · unfold Grammar.act
    rw [hg, getD_append_left _ _ _ _ (by omega),
      getD_append_right2 _ _ _ _ (Nat.le_refl _), Nat.sub_self]
    rfl
  · unfold Grammar.act
    rw [hg, getD_append_left _ _ _ _ hlen,
      getD_append_right2 _ _ _ _ (by omega),
      show A.length + 1 - A.length = 1 by omega]
    rfl

theorem reqPosIdxs_shift (rest : List String) (g : Grammar)
    (A B : List Action) (a0 a1 : Action) (gb : Nat)
    (hg : g.actions = A ++ (a0 :: a1 :: reqActs rest gb) ++ B) :
    g.actions = (A ++ [a0, a1]) ++ reqActs rest gb ++ B := by
  simpa [List.append_assoc] using hg

theorem reqPosIdxs_act (rest : List String) :
    ∀ (g : Grammar) (A B : List Action) (gb : Nat),
      g.actions = A ++ reqActs rest gb ++ B →
      ∀ i ∈ reqPosIdxs rest A.length,
        ∃ nm gr, g.act i = ⟨nm, .posOpt .tstr, some gr⟩ ∧ gb ≤ gr := by
  induction rest with
  | nil =>
    intro g A B gb hg i hi
    simp [reqPosIdxs] at hi
  | cons n rs ih =>
    intro g A B gb hg i hi
    rw [reqPosIdxs, List.mem_cons] at hi
    rcases hi with hi | hi
    · subst hi
      exact ⟨n, gb, (act_decomp_req_head g A B n rs gb hg).2, Nat.le_refl gb⟩
    · have hg2 : g.actions = (A ++ [⟨n, .optVal .tstr, some gb⟩,
          ⟨n, .posOpt .tstr, some gb⟩]) ++ reqActs rs (gb + 1) ++ B :=
        reqPosIdxs_shift rs g A B _ _ (gb + 1) (by simpa [reqActs] using hg)
      have hi2 : i ∈ reqPosIdxs rs (A ++ [(⟨n, .optVal .tstr, some gb⟩ : Action),
          ⟨n, .posOpt .tstr, some gb⟩]).length := by
        simpa using hi
      obtain ⟨nm, gr, hact, hge⟩ := ih g _ B (gb + 1) hg2 i hi2
      exact ⟨nm, gr, hact, by omega⟩

theorem optIdxs_act (rest : List String) :
    ∀ (g : Grammar) (A B : List Action) (gb : Nat),
      g.actions = A ++ reqActs rest gb ++ B →
      ∀ i ∈ optIdxs rest A.length,
        ∃ nm gr, g.act i = ⟨nm, .optVal .tstr, some gr⟩ ∧ gb ≤ gr := by
  induction rest with
  | nil =>
    intro g A B gb hg i hi
    simp [optIdxs] at hi
  | cons n rs ih =>
    intro g A B gb hg i hi
    rw [optIdxs, List.mem_cons] at hi
    rcases hi with hi | hi
    · subst hi
      exact ⟨n, gb, (act_decomp_req_head g A B n rs gb hg).1, Nat.le_refl gb⟩
    · have hg2 : g.actions = (A ++ [⟨n, .optVal .tstr, some gb⟩,
          ⟨n, .posOpt .tstr, some gb⟩]) ++ reqActs rs (gb + 1) ++ B :=
        reqPosIdxs_shift rs g A B _ _ (gb + 1) (by simpa [reqActs] using hg)
      have hi2 : i ∈ optIdxs rs (A ++ [(⟨n, .optVal .tstr, some gb⟩ : Action),
          ⟨n, .posOpt .tstr, some gb⟩]).length := by
        simpa using hi
      obtain ⟨nm, gr, hact, hge⟩ := ih g _ B (gb + 1) hg2 i hi2
      exact ⟨nm, gr, hact, by omega⟩

theorem ndHasGroup_reqPosIdxs (rest : List String) :
    ∀ (g : Grammar) (A B : List Action) (gb : Nat),
      g.actions = A ++ reqActs rest gb ++ B →
      ∀ k, k < rest.length →
        ndHasGroup g (reqPosIdxs rest A.length) (gb + k) = true := by
  induction rest with
  | nil =>
    intro g A B gb hg k hk
    simp at hk
  | cons n rs ih =>
    intro g A B gb hg k hk
    cases k with
    | zero =>
      have hact := (act_decomp_req_head g A B n rs gb hg).2
      simp [ndHasGroup, reqPosIdxs, hact]
    | succ k' =>
      have hg2 : g.actions = (A ++ [⟨n, .optVal .tstr, some gb⟩,
          ⟨n, .posOpt .tstr, some gb⟩]) ++ reqActs rs (gb + 1) ++ B :=
        reqPosIdxs_shift rs g A B _ _ (gb + 1) (by simpa [reqActs] using hg)
      have htail := ih g _ B (gb + 1) hg2 k' (by simpa using hk)
      have harith : gb + 1 + k' = gb + (k' + 1) := by omega
      rw [harith] at htail
      simp only [ndHasGroup, reqPosIdxs, List.any_cons, Bool.or_eq_true] at htail ⊢
      refine Or.inr ?_
      simpa using htail

theorem ndHasGroup_optIdxs (rest : List String) :
    ∀ (g : Grammar) (A B : List Action) (gb : Nat),
      g.actions = A ++ reqActs rest gb ++ B →
      ∀ k, k < rest.length →
        ndHasGroup g (optIdxs rest A.length) (gb + k) = true := by
  induction rest with
  | nil =>
    intro g A B gb hg k hk
    simp at hk
  | cons n rs ih =>
    intro g A B gb hg k hk
    cases k with
    | zero =>
      have hact := (act_decomp_req_head g A B n rs gb hg).1
      simp [ndHasGroup, optIdxs, hact]
    | succ k' =>
      have hg2 : g.actions = (A ++ [⟨n, .optVal .tstr, some gb⟩,
          ⟨n, .posOpt .tstr, some gb⟩]) ++ reqActs rs (gb + 1) ++ B :=
        reqPosIdxs_shift rs g A B _ _ (gb + 1) (by simpa [reqActs] using hg)
      have htail := ih g _ B (gb + 1) hg2 k' (by simpa using hk)
      have harith : gb + 1 + k' = gb + (k' + 1) := by omega
      rw [harith] at htail
      simp only [ndHasGroup, optIdxs, List.any_cons, Bool.or_eq_true] at htail ⊢
      refine Or.inr ?_
      simpa using htail

theorem ndHasGroup_append_left (g : Grammar) (l1 l2 : List Nat) (gr : Nat)
    (h : ndHasGroup g l1 gr = true) : ndHasGroup g (l1 ++ l2) gr = true := by
  simp only [ndHasGroup, List.any_append, Bool.or_eq_true]
  exact Or.inl (by simpa [ndHasGroup] using h)

theorem groupCheckGo_none (g : Grammar) (st : PState) :
    ∀ (G : List Bool) (gr0 : Nat),
      (∀ k, k < G.length → G.getD k false = true →
        ndHasGroup g st.seenND (gr0 + k) = true) →
      groupCheckGo g st G gr0 = none := by
  intro G
  induction G with
  | nil => intro gr0 _; rfl
  | cons req rest ih =>
    intro gr0 h
    have htail : groupCheckGo g st rest (gr0 + 1) = none := by
      refine ih (gr0 + 1) (fun k hk ht => ?_)
      have := h (k + 1) (by simpa using hk) (by simpa using ht)
      rw [show gr0 + 1 + k = gr0 + (k + 1) by omega]
      exact this
    cases hreq : req with
    | false => simp [groupCheckGo, htail]
    | true =>
      subst hreq
      have hnd := h 0 (by simp) (by simp)
      rw [Nat.add_zero] at hnd
      simp [groupCheckGo, hnd, htail]

theorem getD_replicate_true (n k : Nat) (hk : k < n) :
    (List.replicate n true).getD k false = true := by
  induction n generalizing k with
  | zero => omega
  | succ m ih =>
    cases k with
    | zero => simp [List.replicate_succ]
    | succ j =>
      simp only [List.replicate_succ, List.getD_cons_succ]
      exact ih j (by omega)

theorem greedyCounts_posOpt (g : Grammar) :
    ∀ (P : List Nat) (availA total : Nat),
      (∀ i ∈ P, ∃ t, (g.act i).kind = .posOpt t) →
      P.length ≤ availA →
      greedyCounts g P availA total = some (List.replicate P.length 1) := by
  intro P
  induction P with
  | nil => intro availA total _ _; rfl
  | cons i is ih =>
    intro availA total hk hle
    obtain ⟨t, ht⟩ := hk i (by simp)
    have hav : 1 ≤ availA := by simp at hle; omega
    have hmin : min 1 availA = 1 := by omega
    rw [greedyCounts, ht]
    simp only [hmin]
    rw [ih (availA - 1) (total - 1)
      (fun j hj => hk j (by simp [hj]))
      (by simp at hle; omega)]
    simp [List.replicate_succ]

theorem matchPartial_posOpt (g : Grammar) (P : List Nat) (availA total : Nat)
    (hk : ∀ i ∈ P, ∃ t, (g.act i).kind = .posOpt t) (hle : P.length ≤ availA) :
    matchPartial g P availA total = List.replicate P.length 1 := by
  unfold matchPartial
  cases hP : P.length with
  | zero =>
    have : P = [] := List.length_eq_zero.mp hP
    subst this
    rfl
  | succ m =>
    rw [matchPartialFrom, ← hP, List.take_length,
      greedyCounts_posOpt g P availA total hk hle]

theorem groupConflict_none_of_groupless (g : Grammar) (st : PState) (i : Nat)
    (hg : (g.act i).group = none) : groupConflict g st i = none := by
  simp [groupConflict, hg]

theorem groupConflict_none_of_fresh (g : Grammar) (st : PState) (i gr : Nat)
    (hg : (g.act i).group = some gr)
    (h : ∀ j ∈ st.seenND, (g.act j).group ≠ some gr) : groupConflict g st i = none := by
  unfold groupConflict
  rw [hg, List.find?_eq_none]
  intro j hj
  simp [h j hj]

theorem setAttr_fresh (l : List (String × Value)) (n : String) (v : Value)
    (h : n ∉ l.map (fun p => p.1)) : setAttr l n v = l ++ [(n, v)] := by
  induction l with
  | nil => rfl
  | cons p ps ih =>
    simp only [List.map_cons, List.mem_cons] at h
    push_neg at h
    have hne : (p.1 == n) = false := by
      simp [Ne.symm h.1]
    cases p with
    | mk k w =>
      simp only at hne
      simp [setAttr, hne, ih h.2]

theorem assignPositionals_req (rest : List String) :
    ∀ (vals extraT : List String) (g : Grammar) (A B : List Action) (gb : Nat)
      (st : PState),
      g.actions = A ++ reqActs rest gb ++ B →
      rest.length = vals.length →
      rest.Nodup →
      (∀ n ∈ rest, n ∉ st.attrs.map (fun p => p.1)) →
      (∀ j ∈ st.seenND, ∀ gr, (g.act j).group = some gr → gr < gb) →
      assignPositionals g st (reqPosIdxs rest A.length)
          (List.replicate rest.length 1) (vals ++ extraT)
        = .ok ⟨st.attrs ++ strBindings rest vals,
               st.seen ++ reqPosIdxs rest A.length,
               st.seenND ++ reqPosIdxs rest A.length,
               st.pending, st.extras⟩ := by
  induction rest with
  | nil =>
    intro vals extraT g A B gb st hg hlen hnd hfresh hgr
    have hv : vals = [] := List.length_eq_zero.mp hlen.symm
    subst hv
    cases st
    simp [reqPosIdxs, assignPositionals, strBindings]
  | cons n rs ih =>
    intro vals extraT g A B gb st hg hlen hnd hfresh hgr
    cases vals with
    | nil => simp at hlen
    | cons v vs =>
      have hlen2 : rs.length = vs.length := by simpa using hlen
      have hact := (act_decomp_req_head g A B n rs gb hg).2
      have hconf : groupConflict g st (A.length + 1) = none := by
        refine groupConflict_none_of_fresh g st (A.length + 1) gb
          (by rw [hact]) (fun j hj => ?_)
        intro hcontra
        have := hgr j hj gb hcontra
        omega
      have hfreshn : n ∉ st.attrs.map (fun p => p.1) := hfresh n (by simp)
      have hstep : assignPositionals g st
          ((A.length + 1) :: reqPosIdxs rs (A.length + 2))
          (1 :: List.replicate rs.length 1) ((v :: vs) ++ extraT)
          = assignPositionals g
            ⟨st.attrs ++ [(n, .vstr v)], st.seen ++ [A.length + 1],
             st.seenND ++ [A.length + 1], st.pending, st.extras⟩
            (reqPosIdxs rs (A.length + 2)) (List.replicate rs.length 1)
            (vs ++ extraT) := by
        rw [assignPositionals]
        simp only [List.cons_append]
        rw [show ((v :: (vs ++ extraT)).take 1) = [v] from rfl,
          show ((v :: (vs ++ extraT)).drop 1) = vs ++ extraT from rfl,
          hact]
        simp only [convert]
        rw [takeAction, hconf]
        simp only [hact]
        rw [setAttr_fresh st.attrs n (.vstr v) hfreshn]
      have hg2 : g.actions = (A ++ [(⟨n, .optVal .tstr, some gb⟩ : Action),
          ⟨n, .posOpt .tstr, some gb⟩]) ++ reqActs rs (gb + 1) ++ B :=
        reqPosIdxs_shift rs g A B _ _ (gb + 1) (by simpa [reqActs] using hg)
      have hihst := ih vs extraT g
        (A ++ [(⟨n, .optVal .tstr, some gb⟩ : Action), ⟨n, .posOpt .tstr, some gb⟩])
        B (gb + 1)
        ⟨st.attrs ++ [(n, .vstr v)], st.seen ++ [A.length + 1],
         st.seenND ++ [A.length + 1], st.pending, st.extras⟩
        hg2 hlen2 hnd.of_cons
        (by
          intro n2 hn2
          simp only [List.map_append, List.mem_append]
          push_neg
          refine ⟨hfresh n2 (by simp [hn2]), ?_⟩
          have : n2 ≠ n := by
            intro hcontra
            subst hcontra
            exact (List.nodup_cons.mp hnd).1 hn2
          simp [this])
        (by
          intro j hj gr hgrj
          simp only [List.mem_append, List.mem_singleton] at hj
          rcases hj with hj | hj
          · have := hgr j hj gr hgrj
            omega
          · subst hj
            rw [hact] at hgrj
            have hgb : gb = gr := Option.some.inj hgrj
            omega)
      rw [reqPosIdxs,
        show List.replicate (n :: rs).length 1 = 1 :: List.replicate rs.length 1
          from by simp [List.replicate_succ]]
      rw [hstep]
      have hA2 : (A ++ [(⟨n, .optVal .tstr, some gb⟩ : Action),
          ⟨n, .posOpt .tstr, some gb⟩]).length = A.length + 2 := by simp
      rw [hA2] at hihst
      rw [hihst]
      congr 1
      simp [strBindings, reqPosIdxs]

theorem takeWhile_all_true2 {α : Type} (p : α → Bool) (l : List α)
    (h : ∀ x ∈ l, p x = true) : l.takeWhile p = l := by
  induction l with
  | nil => rfl
  | cons x xs ih =>
    have hx := h x (by simp)
    simp [List.takeWhile, hx, ih (fun y hy => h y (by simp [hy]))]

/-- One `consume_positionals` pass over the leading run of plain value
tokens in a grammar whose positionals are the `nargs="?"` slots of the
required parameters: all of them are consumed, one value each. -/
theorem parseLoop_req_run (names values suffix : List String)
    (TAIL : List Action) (G2 : List Bool) (fuel : Nat)
    (hTpos : positionalIdxs TAIL (2 * names.length) = [])
    (hlen : names.length = values.length)
    (hnd : names.Nodup)
    (hplain : ∀ v ∈ values, tokenIsOpt v = false)
    (hsuffix : (values ++ suffix).takeWhile (fun t => !(tokenIsOpt t)) = values)
    (hne : values ≠ []) :
    parseLoop ⟨reqActs names 0 ++ TAIL, G2⟩ (fuel + 1)
        (initState ⟨reqActs names 0 ++ TAIL, G2⟩) (values ++ suffix)
      = parseLoop ⟨reqActs names 0 ++ TAIL, G2⟩ fuel
          ⟨strBindings names values, reqPosIdxs names 0, reqPosIdxs names 0, [], []⟩
          suffix := by
  set g : Grammar := ⟨reqActs names 0 ++ TAIL, G2⟩ with hgdef
  have hgact : g.actions = [] ++ reqActs names 0 ++ TAIL := by simp [hgdef]
  have hpending : initState g = ⟨[], [], [], reqPosIdxs names 0, []⟩ := by
    unfold initState
    rw [hgdef]
    simp only [positionalIdxs_append, positionalIdxs_reqActs, reqActs_length,
      Nat.zero_add, hTpos, List.append_nil]
  obtain ⟨v, vs, rfl⟩ : ∃ v vs, values = v :: vs := by
    cases values with
    | nil => exact absurd rfl hne
    | cons v vs => exact ⟨v, vs, rfl⟩
  have hkindfact : ∀ i ∈ reqPosIdxs names 0, ∃ t, (g.act i).kind = .posOpt t := by
    intro i hi
    obtain ⟨nm, gr, hact, _⟩ :=
      reqPosIdxs_act names g [] TAIL 0 hgact i (by simpa using hi)
    exact ⟨.tstr, by rw [hact]⟩
  have hvopt : tokenIsOpt v = false := hplain v (by simp)
  have havail : ((v :: vs) ++ suffix).takeWhile (fun t => !(tokenIsOpt t))
      = v :: vs := hsuffix
  have hmp : matchPartial g (reqPosIdxs names 0) (v :: vs).length
      ((v :: vs) ++ suffix).length = List.replicate names.length 1 := by
    rw [← reqPosIdxs_length names 0]
    exact matchPartial_posOpt g (reqPosIdxs names 0) _ _ hkindfact
      (by rw [reqPosIdxs_length, hlen])
  have hrep : List.replicate names.length 1 = 1 :: List.replicate vs.length 1 := by
    rw [hlen]
    simp [List.replicate_succ]
  have hassign := assignPositionals_req names (v :: vs) suffix g [] TAIL 0
    ⟨[], [], [], [], []⟩ hgact hlen hnd (by simp) (by simp)
  have hcountlen : (1 :: List.replicate vs.length 1).length = names.length := by
    simp [hlen]
  have htake1 : (reqPosIdxs names 0).take (1 :: List.replicate vs.length 1).length
      = reqPosIdxs names 0 := by
    rw [hcountlen, ← reqPosIdxs_length names 0, List.take_length]
  have hdrop1 : (reqPosIdxs names 0).drop (1 :: List.replicate vs.length 1).length
      = [] := by
    rw [hcountlen, ← reqPosIdxs_length names 0, List.drop_length]
  rw [hrep] at hassign
  have hsum1 : sumList (1 :: List.replicate vs.length 1) = ((v :: vs) : List String).length := by
    rw [← hrep, sumList_replicate_one, hlen]
  simp only [List.length_nil, List.nil_append] at hassign
  simp only [List.cons_append]
  rw [parseLoop, hpending]
  simp only [hvopt, Bool.false_eq_true, if_false]
  rw [show ((v :: (vs ++ suffix)).takeWhile (fun t => !(tokenIsOpt t))).length
      = (v :: vs).length from by rw [← List.cons_append, havail]]
  rw [show (v :: (vs ++ suffix)) = (v :: vs) ++ suffix from rfl]
  rw [hmp, hrep]
  show (match assignPositionals g
      ⟨[], [], [], (reqPosIdxs names 0).drop (1 :: List.replicate vs.length 1).length, []⟩
      ((reqPosIdxs names 0).take (1 :: List.replicate vs.length 1).length)
      (1 :: List.replicate vs.length 1) ((v :: vs) ++ suffix) with
    | .error e => .error e
    | .ok st2 => parseLoop g fuel st2
        (((v :: vs) ++ suffix).drop (sumList (1 :: List.replicate vs.length 1))))
    = parseLoop g fuel ⟨strBindings names (v :: vs), reqPosIdxs names 0,
        reqPosIdxs names 0, [], []⟩ suffix
  rw [htake1, hdrop1, hassign]
  show parseLoop g fuel
      ⟨[] ++ strBindings names (v :: vs), [] ++ reqPosIdxs names 0,
       [] ++ reqPosIdxs names 0, [], []⟩
      (((v :: vs) ++ suffix).drop (sumList (1 :: List.replicate vs.length 1)))
    = parseLoop g fuel ⟨strBindings names (v :: vs), reqPosIdxs names 0,
        reqPosIdxs names 0, [], []⟩ suffix
  rw [hsum1, List.drop_left]
  simp only [List.nil_append]

theorem foldl_endStep_posOpt (g : Grammar) :
    ∀ (P : List Nat) (st : PState),
      (∀ i ∈ P, ∃ t, (g.act i).kind = .posOpt t) →
      P.foldl (endStep g) st = ⟨st.attrs, st.seen ++ P, st.seenND, st.pending, st.extras⟩ := by
  intro P
  induction P with
  | nil =>
    intro st _
    cases st
    simp
  | cons i is ih =>
    intro st h
    obtain ⟨t, ht⟩ := h i (by simp)
    have hstep : endStep g st i = markSeen st i := by
      simp [endStep, ht]
    simp only [List.foldl_cons, hstep, markSeen]
    rw [ih _ (fun j hj => h j (by simp [hj]))]
    simp

theorem endConsume_posOpt (g : Grammar) (st : PState)
    (h : ∀ i ∈ st.pending, ∃ t, (g.act i).kind = .posOpt t) :
    endConsume g st = ⟨st.attrs, st.seen ++ st.pending, st.seenND, st.pending, st.extras⟩ := by
  unfold endConsume
  rw [takeWhile_all_true2 _ st.pending
    (fun i hi => by obtain ⟨t, ht⟩ := h i hi; simp [nullableKind, ht])]
  exact foldl_endStep_posOpt g st.pending st h

theorem endConsume_nil_pending (g : Grammar) (st : PState) (h : st.pending = []) :
    endConsume g st = st := by
  simp [endConsume, h]

theorem requiredActionsCheck_none (g : Grammar) (st : PState)
    (h : ∀ i ∈ positionalIdxs g.actions 0, (g.act i).kind ≠ .posOne) :
    requiredActionsCheck g st = none := by
  unfold requiredActionsCheck
  have hfil : (positionalIdxs g.actions 0).filter
      (fun i => (g.act i).kind == .posOne && !(st.seen.contains i)) = [] := by
    rw [List.filter_eq_nil_iff]
    intro i hi
    have hbe : ((g.act i).kind == ActKind.posOne) = false :=
      beq_eq_false_iff_ne.mpr (h i hi)
    simp [hbe]
  simp only [requiredActionsCheck]
  rw [hfil]
  rfl

theorem tokenIsOpt_of_dashdash (s : String) (rest : List Char)
    (h : s.data = '-' :: '-' :: rest) : tokenIsOpt s = true := by
  have h1 : strStarts s "-" = true := by
    unfold strStarts
    rw [show ("-" : String).data = ['-'] from rfl, h]
    simp [isPrefixChars]
  have h2 : (s != "-") = true := by
    have hne : s ≠ "-" := by
      intro hcontra
      rw [hcontra] at h
      simp at h
    simp [bne, hne]
  have h3 : looksNegNum s = false := by
    unfold looksNegNum
    rw [h]
    simp [Char.isDigit]
  simp [tokenIsOpt, h1, h2, h3]

theorem data_dashdash (n : String) : ("--" ++ n).data = '-' :: '-' :: n.data := by
  simp [String.data_append]

theorem data_dashno (n : String) : ("--no" ++ n).data = '-' :: '-' :: ('n' :: 'o' :: n.data) := by
  simp [String.data_append]

theorem data_namedToken (n v : String) :
    ("--" ++ n ++ "=" ++ v).data = '-' :: '-' :: (n.data ++ '=' :: v.data) := by
  simp [String.data_append]

theorem splitEqChars_no_eq (l : List Char) (h : l.all (fun c => c != '=') = true) :
    splitEqChars l = (l, none) := by
  induction l with
  | nil => rfl
  | cons c cs ih =>
    simp only [List.all_cons, Bool.and_eq_true] at h
    have hc : ¬(c = '=') := by simpa using h.1
    simp [splitEqChars, hc, ih h.2]

theorem splitEqChars_mid (l r : List Char) (h : l.all (fun c => c != '=') = true) :
    splitEqChars (l ++ '=' :: r) = (l, some r) := by
  induction l with
  | nil => simp [splitEqChars]
  | cons c cs ih =>
    simp only [List.all_cons, Bool.and_eq_true] at h
    have hc : ¬(c = '=') := by simpa using h.1
    simp [splitEqChars, hc, ih h.2]

theorem findOptIdxAux_skip (A Y : List Action) (s : String) :
    ∀ b : Nat, (∀ a ∈ A, a.optionString ≠ some s) →
      findOptIdxAux (A ++ Y) s b = findOptIdxAux Y s (b + A.length) := by
  induction A with
  | nil => intro b _; simp [findOptIdxAux]
  | cons a as ih =>
    intro b h
    have ha : (a.optionString == some s) = false :=
      beq_eq_false_iff_ne.mpr (h a (by simp))
    simp only [List.cons_append, findOptIdxAux, ha, Bool.false_eq_true, if_false,
      List.append_eq]
    rw [ih (b + 1) (fun x hx => h x (by simp [hx]))]
    congr 1
    simp
    omega

/-- The named-flags loop: consuming `--name=value` tokens for the required
parameters, one `consume_optional` step each. -/
theorem parseLoop_named (rest : List String) :
    ∀ (vals : List String) (g : Grammar) (A B : List Action) (gb : Nat)
      (st : PState) (fuel : Nat),
      g.actions = A ++ reqActs rest gb ++ B →
      rest.length = vals.length →
      rest.length ≤ fuel →
      rest.Nodup →
      (∀ n ∈ rest, n.data.all (fun c => c != '=') = true) →
      (∀ n ∈ rest, ∀ a ∈ A, a.optionString ≠ some ("--" ++ n)) →
      (∀ n ∈ rest, n ∉ st.attrs.map (fun p => p.1)) →
      (∀ j ∈ st.seenND, ∀ gr, (g.act j).group = some gr → gr < gb) →
      parseLoop g fuel st (namedTokens rest vals)
        = .ok ⟨st.attrs ++ strBindings rest vals,
               st.seen ++ optIdxs rest A.length,
               st.seenND ++ optIdxs rest A.length,
               st.pending, st.extras⟩ := by
  induction rest with
  | nil =>
    intro vals g A B gb st fuel hg hlen hfuel hnd heq hA hfresh hgr
    have hv : vals = [] := List.length_eq_zero.mp hlen.symm
    subst hv
    cases st
    simp [namedTokens, optIdxs, strBindings]
    cases fuel <;> rfl
  | cons n rs ih =>
    intro vals g A B gb st fuel hg hlen hfuel hnd heq hA hfresh hgr
    cases vals with
    | nil => simp at hlen
    | cons v vs =>
      cases fuel with
      | zero => simp at hfuel
      | succ f =>
        have hlen2 : rs.length = vs.length := by simpa using hlen
        have hact := (act_decomp_req_head g A B n rs gb hg).1
        have heqn : n.data.all (fun c => c != '=') = true := heq n (by simp)
        have htok : tokenIsOpt ("--" ++ n ++ "=" ++ v) = true :=
          tokenIsOpt_of_dashdash _ _ (data_namedToken n v)
        have hsplit : splitEqChars ("--" ++ n ++ "=" ++ v).data
            = ('-' :: '-' :: n.data, some v.data) := by
          rw [data_namedToken]
          have : ('-' :: '-' :: (n.data ++ '=' :: v.data))
              = ('-' :: '-' :: n.data) ++ '=' :: v.data := by simp
          rw [this]
          refine splitEqChars_mid _ _ ?_
          simp [heqn]
        have hmkopt : String.mk ('-' :: '-' :: n.data) = "--" ++ n := by
          cases n
          rfl
        have hfind : findOptionIdx g ("--" ++ n) = some A.length := by
          unfold findOptionIdx
          rw [hg]
          rw [show A ++ reqActs (n :: rs) gb ++ B
              = A ++ (reqActs (n :: rs) gb ++ B) from by simp]
          rw [findOptIdxAux_skip A _ _ 0 (fun a ha => hA n (by simp) a ha)]
          rw [reqActs]
          simp [findOptIdxAux, Action.optionString]
        have hconf : groupConflict g st A.length = none := by
          refine groupConflict_none_of_fresh g st A.length gb
            (by rw [hact]) (fun j hj => ?_)
          intro hcontra
          have := hgr j hj gb hcontra
          omega
        have hfreshn : n ∉ st.attrs.map (fun p => p.1) := hfresh n (by simp)
        have hconsume : consumeOptional g st ("--" ++ n ++ "=" ++ v) (namedTokens rs vs)
            = .ok (⟨st.attrs ++ [(n, .vstr v)], st.seen ++ [A.length],
                   st.seenND ++ [A.length], st.pending, st.extras⟩, 0) := by
          simp only [consumeOptional, hsplit, hmkopt, hfind, hact, convert,
            takeAction, hconf,
            show String.mk v.data = v from by cases v; rfl,
            setAttr_fresh st.attrs n (.vstr v) hfreshn]
        rw [show namedTokens (n :: rs) (v :: vs)
            = ("--" ++ n ++ "=" ++ v) :: namedTokens rs vs from rfl]
        rw [parseLoop]
        simp only [htok, if_true]
        rw [hconsume]
        show parseLoop g f ⟨st.attrs ++ [(n, Value.vstr v)], st.seen ++ [A.length],
            st.seenND ++ [A.length], st.pending, st.extras⟩
            (List.drop 0 (namedTokens rs vs))
          = Except.ok ⟨st.attrs ++ strBindings (n :: rs) (v :: vs),
              st.seen ++ optIdxs (n :: rs) A.length,
              st.seenND ++ optIdxs (n :: rs) A.length, st.pending, st.extras⟩
        rw [List.drop_zero]
        have hg2 : g.actions = (A ++ [(⟨n, .optVal .tstr, some gb⟩ : Action),
            ⟨n, .posOpt .tstr, some gb⟩]) ++ reqActs rs (gb + 1) ++ B :=
          reqPosIdxs_shift rs g A B _ _ (gb + 1) (by simpa [reqActs] using hg)
        have hih := ih vs g
          (A ++ [(⟨n, .optVal .tstr, some gb⟩ : Action), ⟨n, .posOpt .tstr, some gb⟩])
          B (gb + 1)
          ⟨st.attrs ++ [(n, .vstr v)], st.seen ++ [A.length],
           st.seenND ++ [A.length], st.pending, st.extras⟩
          f hg2 hlen2 (by simp at hfuel; omega) hnd.of_cons
          (fun n2 hn2 => heq n2 (by simp [hn2]))
          (by
            intro n2 hn2 a ha
            simp only [List.mem_append, List.mem_cons, List.not_mem_nil, or_false] at ha
            rcases ha with ha | ha | ha
            · exact hA n2 (by simp [hn2]) a ha
            · subst ha
              simp only [Action.optionString]
              intro hcontra
              have := dashdash_injective n ("" ++ n2)
                (by simpa using (Option.some.inj hcontra))
              simp at this
              subst this
              exact (List.nodup_cons.mp hnd).1 hn2
            · subst ha
              simp [Action.optionString])
          (by
            intro n2 hn2
            simp only [List.map_append, List.mem_append]
            push_neg
            refine ⟨hfresh n2 (by simp [hn2]), ?_⟩
            have : n2 ≠ n := by
              intro hcontra
              subst hcontra
              exact (List.nodup_cons.mp hnd).1 hn2
            simp [this])
          (by
            intro j hj gr hgrj
            simp only [List.mem_append, List.mem_singleton] at hj
            rcases hj with hj | hj
            · have := hgr j hj gr hgrj
              omega
            · subst hj
              rw [hact] at hgrj
              have hgb : gb = gr := Option.some.inj hgrj
              omega)
        rw [hih]
        have hA2 : (A ++ [(⟨n, .optVal .tstr, some gb⟩ : Action),
            ⟨n, .posOpt .tstr, some gb⟩]).length = A.length + 2 := by simp
        rw [hA2]
        congr 1
        simp [strBindings, optIdxs]

theorem lookupAttr_append_skip (l1 l2 : List (String × Value)) (n : String)
    (h : ∀ p ∈ l1, p.1 ≠ n) : lookupAttr (l1 ++ l2) n = lookupAttr l2 n := by
  induction l1 with
  | nil => rfl
  | cons p ps ih =>
    unfold lookupAttr
    rw [List.cons_append, List.find?_cons_of_neg _ (by simp [h p (by simp)])]
    exact ih (fun q hq => h q (by simp [hq]))

theorem strBindings_eq_shift (n : String) (v : Value) (ns vs : List String)
    (PRE T : List (String × Value)) :
    (PRE ++ [(n, v)]) ++ strBindings ns vs ++ T = PRE ++ ((n, v) :: strBindings ns vs) ++ T := by
  simp

theorem lookupAttr_strBindings (names : List String) :
    ∀ (values : List String) (PRE T : List (String × Value)),
      names.Nodup → names.length = values.length →
      (∀ p ∈ PRE, p.1 ∉ names) →
      List.Forall₂ (fun n v =>
        lookupAttr (PRE ++ strBindings names values ++ T) n = some (.vstr v))
        names values := by
  induction names with
  | nil =>
    intro values PRE T _ hlen _
    have hv : values = [] := List.length_eq_zero.mp hlen.symm
    subst hv
    exact List.Forall₂.nil
  | cons n ns ih =>
    intro values PRE T hnd hlen hpre
    cases values with
    | nil => simp at hlen
    | cons v vs =>
      have hlen2 : ns.length = vs.length := by simpa using hlen
      refine List.Forall₂.cons ?_ ?_
      · rw [show PRE ++ strBindings (n :: ns) (v :: vs) ++ T
            = PRE ++ (strBindings (n :: ns) (v :: vs) ++ T) from by simp]
        rw [lookupAttr_append_skip PRE _ n
          (fun p hp => fun hc => hpre p hp (by simp [hc]))]
        show lookupAttr ((n, Value.vstr v) :: (strBindings ns vs ++ T)) n = _
        unfold lookupAttr
        rw [List.find?_cons_of_pos _ (by simp)]
        rfl
      · have hih := ih vs (PRE ++ [(n, .vstr v)]) T hnd.of_cons hlen2
          (by
            intro p hp
            simp only [List.mem_append, List.mem_singleton] at hp
            rcases hp with hp | hp
            · exact fun hc => hpre p hp (by simp [hc])
            · subst hp
              simpa using (List.nodup_cons.mp hnd).1)
        rw [strBindings_eq_shift] at hih
        exact hih

theorem foldlM_collect_req (attrs : List (String × Value)) (names : List String) :
    ∀ (values : List String) (st : CollectSt),
      st.beforeVar = false →
      List.Forall₂ (fun n v => lookupAttr attrs n = some (.vstr v)) names values →
      (reqParams names).foldlM (collectStep attrs) st
        = .ok ⟨st.args, st.kwargs ++ strBindings names values, false⟩ := by
  induction names with
  | nil =>
    intro values st hbv hf
    cases hf
    cases st with
    | mk a k bv =>
      simp only at hbv
      subst hbv
      simp [reqParams, strBindings]
      rfl
  | cons n ns ih =>
    intro values st hbv hf
    cases hf with
    | cons hnv htail =>
      rename_i v vs
      have hstep : collectStep attrs st ⟨n, .posOrKw, none⟩
          = .ok ⟨st.args, st.kwargs ++ [(n, .vstr v)], false⟩ := by
        simp only [collectStep, hbv]
        rw [hnv]
        simp [hbv]
      simp only [reqParams, List.map_cons, List.foldlM, hstep]
      have hih := ih vs ⟨st.args, st.kwargs ++ [(n, .vstr v)], false⟩ rfl htail
      rw [show (reqParams ns) = List.map (fun n => (⟨n, .posOrKw, none⟩ : Param)) ns
          from rfl] at hih
      refine hih.trans ?_
      simp [strBindings]

theorem removeKey_noop (l : List (String × Value)) (n : String)
    (h : ∀ p ∈ l, p.1 ≠ n) : removeKey l n = l := by
  unfold removeKey
  rw [List.filter_eq_self]
  intro p hp
  simp [h p hp]

theorem bindGo_req_prefix (names : List String) :
    ∀ (values : List String) (psTail : List Param) (kwTail : List (String × Value)),
      names.Nodup → names.length = values.length →
      (∀ n ∈ names, ∀ p ∈ kwTail, p.1 ≠ n) →
      bindGo (reqParams names ++ psTail) [] (strBindings names values ++ kwTail)
        = match bindGo psTail [] kwTail with
          | .ok tl => .ok (strBindings names values ++ tl)
          | .error e => .error e := by
  induction names with
  | nil =>
    intro values psTail kwTail _ hlen _
    have hv : values = [] := List.length_eq_zero.mp hlen.symm
    subst hv
    simp only [reqParams, List.map_nil, List.nil_append, strBindings]
    cases bindGo psTail [] kwTail <;> simp
  | cons n ns ih =>
    intro values psTail kwTail hnd hlen hkw
    cases values with
    | nil => simp at hlen
    | cons v vs =>
      have hlen2 : ns.length = vs.length := by simpa using hlen
      have hlook : lookupAttr ((n, Value.vstr v) :: (strBindings ns vs ++ kwTail)) n
          = some (.vstr v) := by
        unfold lookupAttr
        rw [List.find?_cons_of_pos _ (by simp)]
        rfl
      have hrm : removeKey ((n, Value.vstr v) :: (strBindings ns vs ++ kwTail)) n
          = strBindings ns vs ++ kwTail := by
        unfold removeKey
        rw [List.filter_cons]
        rw [show (((n, Value.vstr v) : String × Value).1 != n) = false from by simp]
        simp only [Bool.false_eq_true, if_false]
        rw [show List.filter (fun p => p.1 != n) (strBindings ns vs ++ kwTail)
            = removeKey (strBindings ns vs ++ kwTail) n from rfl]
        refine removeKey_noop _ n ?_
        intro p hp
        rcases List.mem_append.mp hp with hp | hp
        · have hkeys := strBindings_keys ns vs hlen2
          have : p.1 ∈ ns := by
            rw [← hkeys]
            exact List.mem_map.mpr ⟨p, hp, rfl⟩
          intro hc
          subst hc
          exact (List.nodup_cons.mp hnd).1 this
        · exact hkw n (by simp) p hp
      show bindGo (⟨n, .posOrKw, none⟩ :: (reqParams ns ++ psTail)) []
          ((n, Value.vstr v) :: (strBindings ns vs ++ kwTail)) = _
      rw [bindGo]
      simp only [hlook, hrm]
      have hih := ih vs psTail kwTail (List.nodup_cons.mp hnd).2 hlen2
        (fun m hm p hp => hkw m (by simp [hm]) p hp)
      rw [hih]
      cases bindGo psTail [] kwTail <;> simp [strBindings]

/-- The phases of `parse_args` after the token loop: zero-width consumption
of nullable pending positionals, required-action check, required-group
check, and the unrecognized-arguments check. -/
theorem parseTokens_phases (g : Grammar) (argv : List String) (st : PState)
    (hloop : parseLoop g argv.length (initState g) argv = .ok st)
    (hpend : ∀ i ∈ st.pending, ∃ t, (g.act i).kind = .posOpt t)
    (hpos : ∀ i ∈ positionalIdxs g.actions 0, (g.act i).kind ≠ .posOne)
    (hgrp : ∀ k, k < g.groups.length → g.groups.getD k false = true →
      ndHasGroup g st.seenND k = true)
    (hex : st.extras = []) :
    parseTokens g argv = .ok st.attrs := by
  unfold parseTokens
  rw [hloop]
  show (match requiredActionsCheck g (endConsume g st) with
    | some e => Except.error e
    | none =>
      match groupCheck g (endConsume g st) with
      | some e => Except.error e
      | none =>
        if (endConsume g st).extras.isEmpty then Except.ok (endConsume g st).attrs
        else Except.error (ParseErr.unrecognizedArguments (endConsume g st).extras))
    = Except.ok st.attrs
  rw [endConsume_posOpt g st hpend]
  rw [requiredActionsCheck_none g _ hpos]
  have hgc : groupCheck g ⟨st.attrs, st.seen ++ st.pending, st.seenND,
      st.pending, st.extras⟩ = none := by
    unfold groupCheck
    refine groupCheckGo_none g _ g.groups 0 (fun k hk ht => ?_)
    rw [Nat.zero_add]
    exact hgrp k hk ht
  rw [hgc]
  simp [hex]

/-- Assembles `Namespace.parse_args` from the grammar, parse, collect, and
bind results. -/
theorem parseArgs_eval (key d1 d2 cmd : String) (spec : CommandSpec)
    (argv : List String) (g : Grammar) (attrs : List (String × Value))
    (cst : CollectSt) (out : List (String × Value))
    (hgram : argumentParser key cmd spec = .ok g)
    (hpt : parseTokens g argv = .ok attrs)
    (hcoll : spec.signature.params.foldlM (collectStep attrs)
        (⟨[], [], spec.signature.hasVarPos⟩ : CollectSt) = .ok cst)
    (hbind : bindGo spec.signature.params cst.args cst.kwargs = .ok out) :
    Namespace.parseArgs ⟨key, d1, d2, [(cmd, spec)]⟩ cmd argv = .ok out := by
  have hspec : lookupSpec [(cmd, spec)] cmd = some spec := by simp [lookupSpec]
  simp only [Namespace.parseArgs, hspec, hgram, hpt, hcoll, hbind]

/-! ## C2 -/

/-- C2: for every Command Spec whose parameters are all required scalar
(no-default, non-variadic) parameters, supplying the values purely
positionally and supplying the same values purely as `--name=value` flags
(in declaration order) parse successfully and bind to identical call
arguments - each parameter name mapped to its string value.  The hypotheses
state that the parameter names are distinct Python identifiers (no `=` in a
name) and the values are plain tokens (not flag-shaped), as required for a
value to be suppliable positionally at all. -/
theorem positional_and_named_bind_identically
    (key cmd docstr d1 d2 : String) (names values : List String)
    (hnd : names.Nodup) (hlen : names.length = values.length)
    (heqn : ∀ n ∈ names, n.data.all (fun c => c != '=') = true)
    (hplain : ∀ v ∈ values, tokenIsOpt v = false) :
    Namespace.parseArgs ⟨key, d1, d2, [(cmd, ⟨docstr, ⟨reqParams names⟩⟩)]⟩ cmd values
      = .ok (strBindings names values)
  ∧ Namespace.parseArgs ⟨key, d1, d2, [(cmd, ⟨docstr, ⟨reqParams names⟩⟩)]⟩ cmd
      (namedTokens names values)
      = .ok (strBindings names values) := by
  have hbvp : (⟨reqParams names⟩ : Sig).hasVarPos = false := by
    simpa [Sig.hasVarPos] using reqParams_no_varPos names
  have hgram := argumentParser_req key cmd docstr names hnd
  have hgact : (⟨reqActs names 0, List.replicate names.length true⟩ : Grammar).actions
      = [] ++ reqActs names 0 ++ [] := by simp
  have hlook : List.Forall₂ (fun n v =>
      lookupAttr (strBindings names values) n = some (.vstr v)) names values := by
    have := lookupAttr_strBindings names values [] [] hnd hlen (by simp)
    simpa using this
  have hcoll : (reqParams names).foldlM (collectStep (strBindings names values))
      (⟨[], [], (⟨reqParams names⟩ : Sig).hasVarPos⟩ : CollectSt)
      = .ok ⟨[], strBindings names values, false⟩ := by
    rw [hbvp]
    have := foldlM_collect_req (strBindings names values) names values
      ⟨[], [], false⟩ rfl hlook
    simpa using this
  have hbind : bindGo (reqParams names) [] (strBindings names values)
      = .ok (strBindings names values) := by
    have := bindGo_req_prefix names values [] [] hnd hlen (by simp)
    simpa [bindGo] using this
  have hposk : ∀ i ∈ positionalIdxs
      (⟨reqActs names 0, List.replicate names.length true⟩ : Grammar).actions 0,
      ((⟨reqActs names 0, List.replicate names.length true⟩ : Grammar).act i).kind
        ≠ .posOne := by
    intro i hi
    rw [show (⟨reqActs names 0, List.replicate names.length true⟩ : Grammar).actions
        = reqActs names 0 from rfl, positionalIdxs_reqActs] at hi
    obtain ⟨nm, gr, hact, _⟩ := reqPosIdxs_act names _ [] [] 0 hgact i (by simpa using hi)
    rw [hact]
    simp
  cases values with
  | nil =>
    have hn0 : names = [] := List.length_eq_zero.mp (by simpa using hlen)
    subst hn0
    constructor
    · exact parseArgs_eval key d1 d2 cmd _ [] ⟨[], []⟩ [] ⟨[], [], false⟩ []
        (by simpa using hgram) rfl (by simpa using hcoll) rfl
    · exact parseArgs_eval key d1 d2 cmd _ (namedTokens [] []) ⟨[], []⟩ []
        ⟨[], [], false⟩ []
        (by simpa using hgram) rfl (by simpa using hcoll) rfl
  | cons v vs =>
    have hne : (v :: vs : List String) ≠ [] := by simp
    have hgrpPos : ∀ k, k <
        (⟨reqActs names 0, List.replicate names.length true⟩ : Grammar).groups.length →
        (⟨reqActs names 0, List.replicate names.length true⟩ : Grammar).groups.getD
          k false = true →
        ndHasGroup ⟨reqActs names 0, List.replicate names.length true⟩
          (reqPosIdxs names 0) k = true := by
      intro k hk _
      simp only [List.length_replicate] at hk
      have := ndHasGroup_reqPosIdxs names
        ⟨reqActs names 0, List.replicate names.length true⟩ [] [] 0 hgact k hk
      simpa using this
    have hgrpNamed : ∀ k, k <
        (⟨reqActs names 0, List.replicate names.length true⟩ : Grammar).groups.length →
        (⟨reqActs names 0, List.replicate names.length true⟩ : Grammar).groups.getD
          k false = true →
        ndHasGroup ⟨reqActs names 0, List.replicate names.length true⟩
          (optIdxs names 0) k = true := by
      intro k hk _
      simp only [List.length_replicate] at hk
      have := ndHasGroup_optIdxs names
        ⟨reqActs names 0, List.replicate names.length true⟩ [] [] 0 hgact k hk
      simpa using this
    have hptPos : parseTokens ⟨reqActs names 0, List.replicate names.length true⟩
        (v :: vs) = .ok (strBindings names (v :: vs)) := by
      have hrun := parseLoop_req_run names (v :: vs) [] []
        (List.replicate names.length true) vs.length rfl hlen hnd hplain
        (by
          rw [List.append_nil]
          exact takeWhile_all_true2 _ (v :: vs)
            (fun t ht => by simp [hplain t ht]))
        hne
      simp only [List.append_nil] at hrun
      have hloop : parseLoop ⟨reqActs names 0, List.replicate names.length true⟩
          ((v :: vs) : List String).length
          (initState ⟨reqActs names 0, List.replicate names.length true⟩) (v :: vs)
          = .ok ⟨strBindings names (v :: vs), reqPosIdxs names 0,
              reqPosIdxs names 0, [], []⟩ := by
        rw [show ((v :: vs) : List String).length = vs.length + 1 from rfl]
        rw [hrun]
        cases vs.length with
        | zero => rfl
        | succ n => rfl
      exact parseTokens_phases _ _ _ hloop (by simp) hposk hgrpPos rfl
    have hptNamed : parseTokens ⟨reqActs names 0, List.replicate names.length true⟩
        (namedTokens names (v :: vs)) = .ok (strBindings names (v :: vs)) := by
      have hfuel : (namedTokens names (v :: vs)).length = names.length :=
        namedTokens_length names (v :: vs) hlen
      have hpendinit : initState
          (⟨reqActs names 0, List.replicate names.length true⟩ : Grammar)
          = ⟨[], [], [], reqPosIdxs names 0, []⟩ := by
        unfold initState
        rw [show (⟨reqActs names 0, List.replicate names.length true⟩ : Grammar).actions
            = reqActs names 0 from rfl, positionalIdxs_reqActs]
      have hloop := parseLoop_named names (v :: vs)
        ⟨reqActs names 0, List.replicate names.length true⟩ [] [] 0
        ⟨[], [], [], reqPosIdxs names 0, []⟩ (namedTokens names (v :: vs)).length
        hgact hlen (le_of_eq hfuel.symm) hnd heqn (by simp) (by simp) (by simp)
      have hph := parseTokens_phases
        (⟨reqActs names 0, List.replicate names.length true⟩ : Grammar)
        (namedTokens names (v :: vs))
        ⟨strBindings names (v :: vs), optIdxs names 0, optIdxs names 0,
          reqPosIdxs names 0, []⟩
        (by rw [hpendinit]; exact hloop.trans rfl)
        (fun i hi => by
          obtain ⟨nm, gr, hact, _⟩ :=
            reqPosIdxs_act names _ [] [] 0 hgact i (by simpa using hi)
          exact ⟨.tstr, by rw [hact]⟩)
        hposk
        (fun k hk ht => hgrpNamed k hk ht)
        rfl
      exact hph
    exact ⟨parseArgs_eval key d1 d2 cmd _ (v :: vs) _ _ ⟨[], strBindings names (v :: vs), false⟩ _
        hgram hptPos hcoll hbind,
      parseArgs_eval key d1 d2 cmd _ (namedTokens names (v :: vs)) _ _
        ⟨[], strBindings names (v :: vs), false⟩ _
        hgram hptNamed hcoll hbind⟩

/-- C2 witness: the two-parameter command `go(a, b)` with values `1`, `2`. -/
theorem positional_and_named_bind_identically_witness :
    Namespace.parseArgs ⟨"k", "", "", [("go", ⟨"", ⟨reqParams ["a", "b"]⟩⟩)]⟩ "go"
        ["1", "2"] = .ok (strBindings ["a", "b"] ["1", "2"])
  ∧ Namespace.parseArgs ⟨"k", "", "", [("go", ⟨"", ⟨reqParams ["a", "b"]⟩⟩)]⟩ "go"
        (namedTokens ["a", "b"] ["1", "2"]) = .ok (strBindings ["a", "b"] ["1", "2"]) :=
  positional_and_named_bind_identically "k" "go" "" "" "" ["a", "b"] ["1", "2"]
    (by decide) rfl (by decide) (by decide)

theorem mk_data (s : String) : String.mk s.data = s := by
  cases s
  rfl

theorem strAppend_assoc (a b c : String) : a ++ b ++ c = a ++ (b ++ c) := by
  cases a with
  | mk la =>
    cases b with
    | mk lb =>
      cases c with
      | mk lc =>
        show String.mk (la ++ lb ++ lc) = String.mk (la ++ (lb ++ lc))
        rw [List.append_assoc]

theorem dashno_eq (e : String) : "--no" ++ e = "--" ++ ("no" ++ e) := by
  rw [show ("--no" : String) = "--" ++ "no" from rfl, strAppend_assoc]

theorem reqActs_mem (names : List String) :
    ∀ (gb : Nat) (a : Action), a ∈ reqActs names gb →
      ∃ n ∈ names, ∃ gr, a = ⟨n, .optVal .tstr, some gr⟩
        ∨ a = ⟨n, .posOpt .tstr, some gr⟩ := by
  induction names with
  | nil =>
    intro gb a ha
    simp [reqActs] at ha
  | cons n rest ih =>
    intro gb a ha
    simp only [reqActs, List.mem_cons] at ha
    rcases ha with rfl | rfl | ha
    · exact ⟨n, by simp, gb, Or.inl rfl⟩
    · exact ⟨n, by simp, gb, Or.inr rfl⟩
    · obtain ⟨m, hm, gr, hor⟩ := ih (gb + 1) a ha
      exact ⟨m, by simp [hm], gr, hor⟩

theorem reqActs_optstr_ne (names : List String) (gb : Nat) (s e2 : String)
    (hs : s = "--" ++ e2) (he : e2 ∉ names) :
    ∀ a ∈ reqActs names gb, a.optionString ≠ some s := by
  intro a ha hc
  obtain ⟨n, hn, gr, hor⟩ := reqActs_mem names gb a ha
  rcases hor with rfl | rfl
  · rw [hs] at hc
    simp only [Action.optionString] at hc
    have := dashdash_injective n e2 (Option.some.inj hc)
    exact he (this ▸ hn)
  · simp [Action.optionString] at hc

theorem reqPosIdxs_act_lt (rest : List String) :
    ∀ (g : Grammar) (A B : List Action) (gb : Nat),
      g.actions = A ++ reqActs rest gb ++ B →
      ∀ i ∈ reqPosIdxs rest A.length,
        ∃ nm gr, g.act i = ⟨nm, .posOpt .tstr, some gr⟩
          ∧ gb ≤ gr ∧ gr < gb + rest.length := by
  induction rest with
  | nil =>
    intro g A B gb hg i hi
    simp [reqPosIdxs] at hi
  | cons n rs ih =>
    intro g A B gb hg i hi
    rw [reqPosIdxs, List.mem_cons] at hi
    rcases hi with hi | hi
    · subst hi
      exact ⟨n, gb, (act_decomp_req_head g A B n rs gb hg).2, Nat.le_refl gb, by simp⟩
    · have hg2 : g.actions = (A ++ [⟨n, .optVal .tstr, some gb⟩,
          ⟨n, .posOpt .tstr, some gb⟩]) ++ reqActs rs (gb + 1) ++ B :=
        reqPosIdxs_shift rs g A B _ _ (gb + 1) (by simpa [reqActs] using hg)
      have hi2 : i ∈ reqPosIdxs rs (A ++ [(⟨n, .optVal .tstr, some gb⟩ : Action),
          ⟨n, .posOpt .tstr, some gb⟩]).length := by
        simpa using hi
      obtain ⟨nm, gr, hact, hge, hlt⟩ := ih g _ B (gb + 1) hg2 i hi2
      refine ⟨nm, gr, hact, by omega, ?_⟩
      simp only [List.length_cons]
      omega

theorem boolGrammar_decomp (names : List String) (e : String) :
    (boolGrammar names e).actions = [] ++ reqActs names 0
      ++ [⟨e, .optTrue, some names.length⟩, ⟨e, .optFalse, some names.length⟩] := by
  simp [boolGrammar]

theorem boolGrammar_act_true (names : List String) (e : String) :
    (boolGrammar names e).act (2 * names.length)
      = ⟨e, .optTrue, some names.length⟩ := by
  unfold Grammar.act boolGrammar
  rw [show 2 * names.length = (reqActs names 0).length from (reqActs_length names 0).symm]
  rw [getD_append_right2 _ _ _ _ (Nat.le_refl _), Nat.sub_self]
  rfl

theorem boolGrammar_act_false (names : List String) (e : String) :
    (boolGrammar names e).act (2 * names.length + 1)
      = ⟨e, .optFalse, some names.length⟩ := by
  unfold Grammar.act boolGrammar
  rw [getD_append_right2 _ _ _ _ (by rw [reqActs_length]; omega)]
  rw [show 2 * names.length + 1 - (reqActs names 0).length = 1 from by
    rw [reqActs_length]; omega]
  rfl

theorem boolGrammar_find_true (names : List String) (e : String) (he : e ∉ names) :
    findOptionIdx (boolGrammar names e) ("--" ++ e) = some (2 * names.length) := by
  unfold findOptionIdx
  rw [show (boolGrammar names e).actions = reqActs names 0
      ++ [⟨e, .optTrue, some names.length⟩, ⟨e, .optFalse, some names.length⟩] from rfl]
  rw [findOptIdxAux_skip _ _ _ 0 (reqActs_optstr_ne names 0 _ e rfl he)]
  simp [findOptIdxAux, Action.optionString, reqActs_length]

theorem boolGrammar_find_false (names : List String) (e : String)
    (hnoe : ("no" ++ e) ∉ names) :
    findOptionIdx (boolGrammar names e) ("--no" ++ e) = some (2 * names.length + 1) := by
  unfold findOptionIdx
  rw [show (boolGrammar names e).actions = reqActs names 0
      ++ [⟨e, .optTrue, some names.length⟩, ⟨e, .optFalse, some names.length⟩] from rfl]
  rw [findOptIdxAux_skip _ _ _ 0
    (reqActs_optstr_ne names 0 _ ("no" ++ e) (dashno_eq e) hnoe)]
  simp [findOptIdxAux, Action.optionString, reqActs_length, dashdash_ne_dashno e]

theorem find?_append_none {α : Type} (p : α → Bool) (l1 l2 : List α)
    (h : ∀ x ∈ l1, p x = false) : (l1 ++ l2).find? p = l2.find? p := by
  induction l1 with
  | nil => rfl
  | cons a as ih =>
    rw [List.cons_append, List.find?_cons_of_neg _ (by simp [h a (by simp)])]
    exact ih (fun x hx => h x (by simp [hx]))

theorem mk_data_dashdash (e : String) : String.mk ('-' :: '-' :: e.data) = "--" ++ e := by
  rw [← data_dashdash, mk_data]

theorem mk_data_dashno (e : String) :
    String.mk ('-' :: '-' :: 'n' :: 'o' :: e.data) = "--no" ++ e := by
  rw [← data_dashno, mk_data]

/-- Consuming the bare `--e` flag fires the `store_true` action at index
`2 * names.length`. -/
theorem consumeOptional_bool_true (names : List String) (e : String) (st : PState)
    (rest : List String)
    (he : e ∉ names) (heqe : e.data.all (fun c => c != '=') = true)
    (hgr : ∀ j ∈ st.seenND, ∀ gr, ((boolGrammar names e).act j).group = some gr →
      gr < names.length) :
    consumeOptional (boolGrammar names e) st ("--" ++ e) rest
      = .ok (⟨setAttr st.attrs e (.vbool true), st.seen ++ [2 * names.length],
              st.seenND ++ [2 * names.length], st.pending, st.extras⟩, 0) := by
  have hsplit : splitEqChars (("--" ++ e).data) = ('-' :: '-' :: e.data, none) := by
    rw [data_dashdash]
    exact splitEqChars_no_eq _ (by simp [heqe])
  have hconf : groupConflict (boolGrammar names e) st (2 * names.length) = none := by
    refine groupConflict_none_of_fresh _ _ _ names.length
      (by rw [boolGrammar_act_true]) ?_
    intro j hj hc
    exact absurd (hgr j hj names.length hc) (by omega)
  simp only [consumeOptional, hsplit, mk_data_dashdash, boolGrammar_find_true names e he,
    boolGrammar_act_true, takeAction, hconf, Option.isSome_none, Bool.false_eq_true,
    if_false]

/-- Consuming the bare `--noe` flag when no group member was seen fires the
`store_false` action at index `2 * names.length + 1`. -/
theorem consumeOptional_bool_false (names : List String) (e : String) (st : PState)
    (rest : List String)
    (hnoe : ("no" ++ e) ∉ names) (heqe : e.data.all (fun c => c != '=') = true)
    (hgr : ∀ j ∈ st.seenND, ∀ gr, ((boolGrammar names e).act j).group = some gr →
      gr < names.length) :
    consumeOptional (boolGrammar names e) st ("--no" ++ e) rest
      = .ok (⟨setAttr st.attrs e (.vbool false), st.seen ++ [2 * names.length + 1],
              st.seenND ++ [2 * names.length + 1], st.pending, st.extras⟩, 0) := by
  have hsplit : splitEqChars (("--no" ++ e).data)
      = ('-' :: '-' :: 'n' :: 'o' :: e.data, none) := by
    rw [data_dashno]
    exact splitEqChars_no_eq _ (by simp [heqe])
  have hconf : groupConflict (boolGrammar names e) st (2 * names.length + 1) = none := by
    refine groupConflict_none_of_fresh _ _ _ names.length
      (by rw [boolGrammar_act_false]) ?_
    intro j hj hc
    exact absurd (hgr j hj names.length hc) (by omega)
  simp only [consumeOptional, hsplit, mk_data_dashno,
    boolGrammar_find_false names e hnoe, boolGrammar_act_false, takeAction, hconf,
    Option.isSome_none, Bool.false_eq_true, if_false]

/-- Consuming `--noe` after `--e` was already consumed raises the
mutually-exclusive-group conflict. -/
theorem consumeOptional_bool_conflict (names : List String) (e : String) (st : PState)
    (rest : List String) (S : List Nat)
    (hnoe : ("no" ++ e) ∉ names) (heqe : e.data.all (fun c => c != '=') = true)
    (hsnd : st.seenND = S ++ [2 * names.length])
    (hS : ∀ j ∈ S, ∀ gr, ((boolGrammar names e).act j).group = some gr →
      gr < names.length) :
    consumeOptional (boolGrammar names e) st ("--no" ++ e) rest
      = .error (.notAllowedWith ("--no" ++ e) ("--" ++ e)) := by
  have hsplit : splitEqChars (("--no" ++ e).data)
      = ('-' :: '-' :: 'n' :: 'o' :: e.data, none) := by
    rw [data_dashno]
    exact splitEqChars_no_eq _ (by simp [heqe])
  have hfalse : ∀ j ∈ S, (fun j => j != 2 * names.length + 1
      && ((boolGrammar names e).act j).group == some names.length) j = false := by
    intro j hj
    simp only [Bool.and_eq_false_iff]
    by_cases hg : ((boolGrammar names e).act j).group = some names.length
    · exact absurd (hS j hj names.length hg) (by omega)
    · exact Or.inr (by simpa using hg)
  have hne21 : (2 * names.length != 2 * names.length + 1) = true := by
    simp
  have hconf : groupConflict (boolGrammar names e) st (2 * names.length + 1)
      = some (2 * names.length) := by
    unfold groupConflict
    rw [boolGrammar_act_false]
    show st.seenND.find? _ = _
    rw [hsnd, find?_append_none _ S _ hfalse]
    rw [List.find?_cons_of_pos _ (by
      simp only [hne21, Bool.true_and]
      rw [boolGrammar_act_true]
      simp)]
  simp only [consumeOptional, hsplit, mk_data_dashno,
    boolGrammar_find_false names e hnoe, boolGrammar_act_false, takeAction, hconf,
    Option.isSome_none, Bool.false_eq_true, if_false]
  rw [boolGrammar_act_true]
  simp [Action.errName, Action.optionString]

theorem boolGrammar_posIdxs (names : List String) (e : String) :
    positionalIdxs (boolGrammar names e).actions 0 = reqPosIdxs names 0 := by
  rw [show (boolGrammar names e).actions = reqActs names 0
      ++ [⟨e, .optTrue, some names.length⟩, ⟨e, .optFalse, some names.length⟩] from rfl]
  rw [positionalIdxs_append, positionalIdxs_reqActs]
  simp [positionalIdxs, Action.isPositional]

theorem boolGrammar_no_posOne (names : List String) (e : String) :
    ∀ i ∈ positionalIdxs (boolGrammar names e).actions 0,
      ((boolGrammar names e).act i).kind ≠ .posOne := by
  intro i hi
  rw [boolGrammar_posIdxs] at hi
  obtain ⟨nm, gr, hact, _⟩ := reqPosIdxs_act names _ [] _ 0
    (boolGrammar_decomp names e) i (by simpa using hi)
  rw [hact]
  simp

theorem boolGrammar_init (names : List String) (e : String) :
    initState (boolGrammar names e) = ⟨[], [], [], reqPosIdxs names 0, []⟩ := by
  unfold initState
  rw [boolGrammar_posIdxs]

theorem boolGrammar_reqPos_groups_lt (names : List String) (e : String) :
    ∀ j ∈ reqPosIdxs names 0, ∀ gr,
      ((boolGrammar names e).act j).group = some gr → gr < names.length := by
  intro j hj gr hg
  obtain ⟨nm, gr2, hact, _, hlt⟩ := reqPosIdxs_act_lt names (boolGrammar names e)
    [] _ 0 (boolGrammar_decomp names e) j (by simpa using hj)
  rw [hact] at hg
  have h2 : gr2 = gr := Option.some.inj hg
  omega

theorem boolGrammar_groups_check (names : List String) (e : String) (EXTRA : List Nat) :
    ∀ k, k < (boolGrammar names e).groups.length →
      (boolGrammar names e).groups.getD k false = true →
      ndHasGroup (boolGrammar names e) (reqPosIdxs names 0 ++ EXTRA) k = true := by
  intro k hk ht
  by_cases hkN : k < names.length
  · refine ndHasGroup_append_left _ _ _ _ ?_
    have := ndHasGroup_reqPosIdxs names (boolGrammar names e) [] _ 0
      (boolGrammar_decomp names e) k hkN
    simpa using this
  · have hkeq : k = names.length := by
      simp only [boolGrammar, List.length_append, List.length_replicate,
        List.length_cons, List.length_nil] at hk
      omega
    subst hkeq
    rw [show (boolGrammar names e).groups
        = List.replicate names.length true ++ [false] from rfl] at ht
    rw [getD_append_right2 _ _ _ _ (by simp)] at ht
    simp at ht

/-- `collect` over the required-parameter prefix, continuing with the
remaining parameters. -/
theorem foldlM_collect_req_then (attrs : List (String × Value)) (names : List String)
    (ps2 : List Param) :
    ∀ (values : List String) (st : CollectSt),
      st.beforeVar = false →
      List.Forall₂ (fun n v => lookupAttr attrs n = some (.vstr v)) names values →
      (reqParams names ++ ps2).foldlM (collectStep attrs) st
        = ps2.foldlM (collectStep attrs)
            ⟨st.args, st.kwargs ++ strBindings names values, false⟩ := by
  induction names with
  | nil =>
    intro values st hbv hf
    cases hf
    cases st with
    | mk a k bv =>
      simp only at hbv
      subst hbv
      simp [reqParams, strBindings]
  | cons n ns ih =>
    intro values st hbv hf
    cases hf with
    | cons hnv htail =>
      rename_i v vs
      have hstep : collectStep attrs st ⟨n, .posOrKw, none⟩
          = .ok ⟨st.args, st.kwargs ++ [(n, .vstr v)], false⟩ := by
        simp only [collectStep, hbv]
        rw [hnv]
        simp [hbv]
      rw [show reqParams (n :: ns) ++ ps2
          = (⟨n, .posOrKw, none⟩ : Param) :: (reqParams ns ++ ps2) from by
        simp [reqParams]]
      simp only [List.foldlM, hstep]
      have hih := ih vs ⟨st.args, st.kwargs ++ [(n, .vstr v)], false⟩ rfl htail
      refine hih.trans ?_
      simp [strBindings]

theorem parseLoop_nil (g : Grammar) (fuel : Nat) (st : PState) :
    parseLoop g fuel st [] = .ok st := by
  cases fuel <;> rfl

/-- After the leading positional run, the loop continues on the remaining
tokens from the state holding the required bindings. -/
theorem boolGrammar_reach (names values suffix : List String) (e : String)
    (hlen : names.length = values.length) (hnd : names.Nodup)
    (hplain : ∀ v ∈ values, tokenIsOpt v = false)
    (hsuffix : (values ++ suffix).takeWhile (fun t => !(tokenIsOpt t)) = values) :
    parseLoop (boolGrammar names e) (values.length + suffix.length)
        (initState (boolGrammar names e)) (values ++ suffix)
      = parseLoop (boolGrammar names e) (values.length - 1 + suffix.length)
          ⟨strBindings names values, reqPosIdxs names 0, reqPosIdxs names 0, [], []⟩
          suffix := by
  cases values with
  | nil =>
    have hn0 : names = [] := List.length_eq_zero.mp (by simpa using hlen)
    subst hn0
    rfl
  | cons v vs =>
    have hrun := parseLoop_req_run names (v :: vs) suffix
      [⟨e, .optTrue, some names.length⟩, ⟨e, .optFalse, some names.length⟩]
      (List.replicate names.length true ++ [false])
      (vs.length + suffix.length) rfl hlen hnd hplain hsuffix (by simp)
    rw [show ((v :: vs) : List String).length + suffix.length
        = (vs.length + suffix.length) + 1 from by
      simp only [List.length_cons]
      omega]
    exact hrun

/-- One loop step consuming the bare `--e` flag as the last token. -/
theorem parseLoop_flag_true (names : List String) (e : String) (st : PState)
    (fuel : Nat)
    (he : e ∉ names) (heqe : e.data.all (fun c => c != '=') = true)
    (hgr : ∀ j ∈ st.seenND, ∀ gr, ((boolGrammar names e).act j).group = some gr →
      gr < names.length) :
    parseLoop (boolGrammar names e) (fuel + 1) st ["--" ++ e]
      = .ok ⟨setAttr st.attrs e (.vbool true), st.seen ++ [2 * names.length],
             st.seenND ++ [2 * names.length], st.pending, st.extras⟩ := by
  have htok : tokenIsOpt ("--" ++ e) = true :=
    tokenIsOpt_of_dashdash _ _ (data_dashdash e)
  rw [parseLoop]
  simp only [htok, if_true, consumeOptional_bool_true names e st [] he heqe hgr]
  exact parseLoop_nil _ _ _

/-- One loop step consuming the bare `--noe` flag as the last token. -/
theorem parseLoop_flag_false (names : List String) (e : String) (st : PState)
    (fuel : Nat)
    (hnoe : ("no" ++ e) ∉ names) (heqe : e.data.all (fun c => c != '=') = true)
    (hgr : ∀ j ∈ st.seenND, ∀ gr, ((boolGrammar names e).act j).group = some gr →
      gr < names.length) :
    parseLoop (boolGrammar names e) (fuel + 1) st ["--no" ++ e]
      = .ok ⟨setAttr st.attrs e (.vbool false), st.seen ++ [2 * names.length + 1],
             st.seenND ++ [2 * names.length + 1], st.pending, st.extras⟩ := by
  have htok : tokenIsOpt ("--no" ++ e) = true :=
    tokenIsOpt_of_dashdash _ _ (data_dashno e)
  rw [parseLoop]
  simp only [htok, if_true, consumeOptional_bool_false names e st [] hnoe heqe hgr]
  exact parseLoop_nil _ _ _

/-- Two loop steps consuming `--e` then `--noe`: the second raises the
mutually-exclusive conflict. -/
theorem parseLoop_flag_both (names : List String) (e : String) (st : PState)
    (fuel : Nat)
    (he : e ∉ names) (hnoe : ("no" ++ e) ∉ names)
    (heqe : e.data.all (fun c => c != '=') = true)
    (hgr : ∀ j ∈ st.seenND, ∀ gr, ((boolGrammar names e).act j).group = some gr →
      gr < names.length) :
    parseLoop (boolGrammar names e) (fuel + 2) st ["--" ++ e, "--no" ++ e]
      = .error (.notAllowedWith ("--no" ++ e) ("--" ++ e)) := by
  have htok : tokenIsOpt ("--" ++ e) = true :=
    tokenIsOpt_of_dashdash _ _ (data_dashdash e)
  have htok2 : tokenIsOpt ("--no" ++ e) = true :=
    tokenIsOpt_of_dashdash _ _ (data_dashno e)
  show parseLoop (boolGrammar names e) ((fuel + 1) + 1) st _ = _
  rw [parseLoop]
  simp only [htok, if_true,
    consumeOptional_bool_true names e st ["--no" ++ e] he heqe hgr]
  rw [show List.drop 0 ["--no" ++ e] = ["--no" ++ e] from rfl]
  rw [parseLoop]
  simp only [htok2, if_true]
  rw [consumeOptional_bool_conflict names e _ [] st.seenND hnoe heqe rfl hgr]

theorem parseArgs_eval_err (key d1 d2 cmd : String) (spec : CommandSpec)
    (argv : List String) (g : Grammar) (err : ParseErr)
    (hgram : argumentParser key cmd spec = .ok g)
    (hpt : parseTokens g argv = .error err) :
    Namespace.parseArgs ⟨key, d1, d2, [(cmd, spec)]⟩ cmd argv
      = .error (.parse err) := by
  have hspec : lookupSpec [(cmd, spec)] cmd = some spec := by simp [lookupSpec]
  simp only [Namespace.parseArgs, hspec, hgram, hpt]

/-! ## C3 -/

/-- C3: for a command whose parameters are required scalars followed by a
boolean parameter `e` defaulting to `False`, the grammar for `e` is exactly
the two flags `--e` (`store_true`) and `--noe` (`store_false`) in one
mutually exclusive group, with no positional form; operationally, supplying
neither flag binds `e` to its default `False`, supplying `--e` binds `e` to
`True`, supplying `--noe` binds `e` to `False`, and supplying both raises
the not-allowed-with-argument error, which `main` surfaces with process exit
code 2. -/
theorem bool_flag_pair_semantics
    (key cmd docstr d1 d2 e : String) (names values : List String)
    (hnd : names.Nodup) (hlen : names.length = values.length)
    (he : e ∉ names) (hnoe : ("no" ++ e) ∉ names)
    (heqe : e.data.all (fun c => c != '=') = true)
    (hplain : ∀ v ∈ values, tokenIsOpt v = false) :
    argumentParser key cmd
        ⟨docstr, ⟨reqParams names ++ [⟨e, .posOrKw, some (.vbool false)⟩]⟩⟩
      = .ok (boolGrammar names e)
  ∧ (boolGrammar names e).actions.filter (fun a => a.dest == e)
      = [⟨e, .optTrue, some names.length⟩, ⟨e, .optFalse, some names.length⟩]
  ∧ (Action.mk e .optTrue (some names.length)).optionString = some ("--" ++ e)
  ∧ (Action.mk e .optFalse (some names.length)).optionString = some ("--no" ++ e)
  ∧ (∀ a ∈ (boolGrammar names e).actions, a.dest = e → a.isPositional = false)
  ∧ Namespace.parseArgs
        ⟨key, d1, d2, [(cmd, ⟨docstr,
          ⟨reqParams names ++ [⟨e, .posOrKw, some (.vbool false)⟩]⟩⟩)]⟩ cmd
        values
      = .ok (strBindings names values ++ [(e, .vbool false)])
  ∧ Namespace.parseArgs
        ⟨key, d1, d2, [(cmd, ⟨docstr,
          ⟨reqParams names ++ [⟨e, .posOrKw, some (.vbool false)⟩]⟩⟩)]⟩ cmd
        (values ++ ["--" ++ e])
      = .ok (strBindings names values ++ [(e, .vbool true)])
  ∧ Namespace.parseArgs
        ⟨key, d1, d2, [(cmd, ⟨docstr,
          ⟨reqParams names ++ [⟨e, .posOrKw, some (.vbool false)⟩]⟩⟩)]⟩ cmd
        (values ++ ["--no" ++ e])
      = .ok (strBindings names values ++ [(e, .vbool false)])
  ∧ Namespace.parseArgs
        ⟨key, d1, d2, [(cmd, ⟨docstr,
          ⟨reqParams names ++ [⟨e, .posOrKw, some (.vbool false)⟩]⟩⟩)]⟩ cmd
        (values ++ ["--" ++ e, "--no" ++ e])
      = .error (.parse (.notAllowedWith ("--no" ++ e) ("--" ++ e)))
  ∧ RunErr.exitCode (.parse (.notAllowedWith ("--no" ++ e) ("--" ++ e))) = 2 := by
  have hgram : argumentParser key cmd
      ⟨docstr, ⟨reqParams names ++ [⟨e, .posOrKw, some (.vbool false)⟩]⟩⟩
      = .ok (boolGrammar names e) :=
    argumentParser_req_bool key cmd docstr e names hnd he hnoe
  have hfilter : (boolGrammar names e).actions.filter (fun a => a.dest == e)
      = [⟨e, .optTrue, some names.length⟩, ⟨e, .optFalse, some names.length⟩] := by
    rw [show (boolGrammar names e).actions = reqActs names 0
        ++ [⟨e, .optTrue, some names.length⟩, ⟨e, .optFalse, some names.length⟩]
        from rfl]
    rw [List.filter_append]
    have h1 : (reqActs names 0).filter (fun a => a.dest == e) = [] := by
      rw [List.filter_eq_nil_iff]
      intro a ha
      obtain ⟨n, hn, gr, hor⟩ := reqActs_mem names 0 a ha
      have hne : a.dest ≠ e := by
        rcases hor with rfl | rfl <;> exact fun hc => he (hc ▸ hn)
      simp [hne]
    rw [h1]
    simp
  have hnopos : ∀ a ∈ (boolGrammar names e).actions, a.dest = e →
      a.isPositional = false := by
    intro a ha hd
    rw [show (boolGrammar names e).actions = reqActs names 0
        ++ [⟨e, .optTrue, some names.length⟩, ⟨e, .optFalse, some names.length⟩]
        from rfl, List.mem_append] at ha
    rcases ha with ha | ha
    · obtain ⟨n, hn, gr, hor⟩ := reqActs_mem names 0 a ha
      rcases hor with rfl | rfl
      · rfl
      · exact absurd (hd ▸ hn) he
    · simp only [List.mem_cons, List.mem_singleton] at ha
      rcases ha with rfl | rfl | ha
      · rfl
      · rfl
      · simp at ha
  have hkeys : ∀ p ∈ strBindings names values, p.1 ≠ e := by
    intro p hp hc
    have hmem : p.1 ∈ names := by
      rw [← strBindings_keys names values hlen]
      exact List.mem_map_of_mem _ hp
    exact he (hc ▸ hmem)
  have hbvp : (⟨reqParams names
      ++ [⟨e, .posOrKw, some (.vbool false)⟩]⟩ : Sig).hasVarPos = false := by
    simp [Sig.hasVarPos, List.any_append, reqParams_no_varPos]
  have hgr1 : ∀ j ∈ reqPosIdxs names 0, ∀ gr,
      ((boolGrammar names e).act j).group = some gr → gr < names.length :=
    boolGrammar_reqPos_groups_lt names e
  have hsetT : setAttr (strBindings names values) e (.vbool true)
      = strBindings names values ++ [(e, .vbool true)] :=
    setAttr_fresh _ _ _ (by rw [strBindings_keys names values hlen]; exact he)
  have hsetF : setAttr (strBindings names values) e (.vbool false)
      = strBindings names values ++ [(e, .vbool false)] :=
    setAttr_fresh _ _ _ (by rw [strBindings_keys names values hlen]; exact he)
  have hcollA : (reqParams names
      ++ [(⟨e, .posOrKw, some (.vbool false)⟩ : Param)]).foldlM
      (collectStep (strBindings names values))
      (⟨[], [], (⟨reqParams names
        ++ [⟨e, .posOrKw, some (.vbool false)⟩]⟩ : Sig).hasVarPos⟩ : CollectSt)
      = .ok ⟨[], strBindings names values, false⟩ := by
    rw [hbvp]
    have hlookA : List.Forall₂ (fun n v =>
        lookupAttr (strBindings names values) n = some (.vstr v)) names values := by
      simpa using lookupAttr_strBindings names values [] [] hnd hlen (by simp)
    refine (foldlM_collect_req_then _ names _ values _ rfl hlookA).trans ?_
    have hlkE : lookupAttr (strBindings names values) e = none := by
      have := lookupAttr_append_skip (strBindings names values) [] e hkeys
      simpa using this
    have hstepA : collectStep (strBindings names values)
        ⟨[], [] ++ strBindings names values, false⟩
        ⟨e, .posOrKw, some (.vbool false)⟩
        = .ok ⟨[], [] ++ strBindings names values, false⟩ := by
      simp [collectStep, hlkE]
    simp only [List.foldlM, hstepA]
    simp
  have hcollP : ∀ vb : Value, (reqParams names
      ++ [(⟨e, .posOrKw, some (.vbool false)⟩ : Param)]).foldlM
      (collectStep (strBindings names values ++ [(e, vb)]))
      (⟨[], [], (⟨reqParams names
        ++ [⟨e, .posOrKw, some (.vbool false)⟩]⟩ : Sig).hasVarPos⟩ : CollectSt)
      = .ok ⟨[], strBindings names values ++ [(e, vb)], false⟩ := by
    intro vb
    rw [hbvp]
    have hlookP : List.Forall₂ (fun n v =>
        lookupAttr (strBindings names values ++ [(e, vb)]) n
          = some (.vstr v)) names values := by
      simpa using lookupAttr_strBindings names values [] [(e, vb)] hnd hlen (by simp)
    refine (foldlM_collect_req_then _ names _ values _ rfl hlookP).trans ?_
    have hlkP : lookupAttr (strBindings names values ++ [(e, vb)]) e = some vb := by
      rw [lookupAttr_append_skip _ _ _ hkeys]
      simp [lookupAttr]
    have hstepP : collectStep (strBindings names values ++ [(e, vb)])
        ⟨[], [] ++ strBindings names values, false⟩
        ⟨e, .posOrKw, some (.vbool false)⟩
        = .ok ⟨[], [] ++ strBindings names values ++ [(e, vb)], false⟩ := by
      simp [collectStep, hlkP]
    simp only [List.foldlM, hstepP]
    simp
  have hbindA : bindGo (reqParams names
      ++ [(⟨e, .posOrKw, some (.vbool false)⟩ : Param)]) []
      (strBindings names values)
      = .ok (strBindings names values ++ [(e, .vbool false)]) := by
    have h := bindGo_req_prefix names values
      [⟨e, .posOrKw, some (.vbool false)⟩] [] hnd hlen (by simp)
    have htail0 : bindGo [(⟨e, .posOrKw, some (.vbool false)⟩ : Param)] [] []
        = .ok [(e, .vbool false)] := by
      simp [bindGo, lookupAttr]
    simp only [List.append_nil] at h
    rw [h, htail0]
  have hbindP : ∀ vb : Value, bindGo (reqParams names
      ++ [(⟨e, .posOrKw, some (.vbool false)⟩ : Param)]) []
      (strBindings names values ++ [(e, vb)])
      = .ok (strBindings names values ++ [(e, vb)]) := by
    intro vb
    have hkw : ∀ n ∈ names, ∀ p ∈ ([(e, vb)] : List (String × Value)), p.1 ≠ n := by
      intro n hn p hp hc
      simp only [List.mem_singleton] at hp
      subst hp
      simp only at hc
      exact he (by rw [hc]; exact hn)
    have h := bindGo_req_prefix names values
      [⟨e, .posOrKw, some (.vbool false)⟩] [(e, vb)] hnd hlen hkw
    have htail : bindGo [(⟨e, .posOrKw, some (.vbool false)⟩ : Param)] [] [(e, vb)]
        = .ok [(e, vb)] := by
      simp [bindGo, lookupAttr, removeKey]
    rw [h, htail]
  refine ⟨hgram, hfilter, rfl, rfl, hnopos, ?_, ?_, ?_, ?_, rfl⟩
  · have hsfx : (values ++ ([] : List String)).takeWhile
        (fun t => !(tokenIsOpt t)) = values := by
      rw [List.append_nil]
      exact takeWhile_all_true _ values (fun t ht => by simp [hplain t ht])
    have hreach := boolGrammar_reach names values [] e hlen hnd hplain hsfx
    simp only [List.append_nil, List.length_nil, Nat.add_zero] at hreach
    have hloop := hreach.trans (parseLoop_nil _ _ _)
    have hpt := parseTokens_phases (boolGrammar names e) values _ hloop
      (by simp) (boolGrammar_no_posOne names e)
      (fun k hk ht => by simpa using boolGrammar_groups_check names e [] k hk ht)
      rfl
    exact parseArgs_eval key d1 d2 cmd _ values _ _
      ⟨[], strBindings names values, false⟩ _ hgram hpt hcollA hbindA
  · have htokT : tokenIsOpt ("--" ++ e) = true :=
      tokenIsOpt_of_dashdash _ _ (data_dashdash e)
    have hsfx : (values ++ ["--" ++ e]).takeWhile
        (fun t => !(tokenIsOpt t)) = values :=
      takeWhile_append_stop _ values _ _
        (fun t ht => by simp [hplain t ht]) (by simp [htokT])
    have hreach := boolGrammar_reach names values ["--" ++ e] e hlen hnd hplain hsfx
    have hstep := parseLoop_flag_true names e
      ⟨strBindings names values, reqPosIdxs names 0, reqPosIdxs names 0, [], []⟩
      (values.length - 1) he heqe hgr1
    have hloop := hreach.trans hstep
    rw [hsetT] at hloop
    have hpt : parseTokens (boolGrammar names e) (values ++ ["--" ++ e])
        = .ok (strBindings names values ++ [(e, .vbool true)]) := by
      have := parseTokens_phases (boolGrammar names e) (values ++ ["--" ++ e])
        ⟨strBindings names values ++ [(e, .vbool true)],
         reqPosIdxs names 0 ++ [2 * names.length],
         reqPosIdxs names 0 ++ [2 * names.length], [], []⟩
        (by rw [List.length_append]; exact hloop)
        (by simp) (boolGrammar_no_posOne names e)
        (fun k hk ht => boolGrammar_groups_check names e [2 * names.length] k hk ht)
        rfl
      exact this
    exact parseArgs_eval key d1 d2 cmd _ (values ++ ["--" ++ e]) _ _
      ⟨[], strBindings names values ++ [(e, .vbool true)], false⟩ _
      hgram hpt (hcollP (.vbool true)) (hbindP (.vbool true))
  · have htokF : tokenIsOpt ("--no" ++ e) = true :=
      tokenIsOpt_of_dashdash _ _ (data_dashno e)
    have hsfx : (values ++ ["--no" ++ e]).takeWhile
        (fun t => !(tokenIsOpt t)) = values :=
      takeWhile_append_stop _ values _ _
        (fun t ht => by simp [hplain t ht]) (by simp [htokF])
    have hreach := boolGrammar_reach names values ["--no" ++ e] e hlen hnd hplain hsfx
    have hstep := parseLoop_flag_false names e
      ⟨strBindings names values, reqPosIdxs names 0, reqPosIdxs names 0, [], []⟩
      (values.length - 1) hnoe heqe hgr1
    have hloop := hreach.trans hstep
    rw [hsetF] at hloop
    have hpt : parseTokens (boolGrammar names e) (values ++ ["--no" ++ e])
        = .ok (strBindings names values ++ [(e, .vbool false)]) := by
      have := parseTokens_phases (boolGrammar names e) (values ++ ["--no" ++ e])
        ⟨strBindings names values ++ [(e, .vbool false)],
         reqPosIdxs names 0 ++ [2 * names.length + 1],
         reqPosIdxs names 0 ++ [2 * names.length + 1], [], []⟩
        (by rw [List.length_append]; exact hloop)
        (by simp) (boolGrammar_no_posOne names e)
        (fun k hk ht =>
          boolGrammar_groups_check names e [2 * names.length + 1] k hk ht)
        rfl
      exact this
    exact parseArgs_eval key d1 d2 cmd _ (values ++ ["--no" ++ e]) _ _
      ⟨[], strBindings names values ++ [(e, .vbool false)], false⟩ _
      hgram hpt (hcollP (.vbool false)) (hbindP (.vbool false))
  · have htokT : tokenIsOpt ("--" ++ e) = true :=
      tokenIsOpt_of_dashdash _ _ (data_dashdash e)
    have hsfx : (values ++ ["--" ++ e, "--no" ++ e]).takeWhile
        (fun t => !(tokenIsOpt t)) = values :=
      takeWhile_append_stop _ values _ _
        (fun t ht => by simp [hplain t ht]) (by simp [htokT])
    have hreach := boolGrammar_reach names values ["--" ++ e, "--no" ++ e] e
      hlen hnd hplain hsfx
    have hstep := parseLoop_flag_both names e
      ⟨strBindings names values, reqPosIdxs names 0, reqPosIdxs names 0, [], []⟩
      (values.length - 1) he hnoe heqe hgr1
    have hloop := hreach.trans hstep
    have hpt : parseTokens (boolGrammar names e) (values ++ ["--" ++ e, "--no" ++ e])
        = .error (.notAllowedWith ("--no" ++ e) ("--" ++ e)) := by
      unfold parseTokens
      rw [List.length_append]
      rw [hloop]
    exact parseArgs_eval_err key d1 d2 cmd _ _ _ _ hgram hpt

/-- C3 witness: the command `go(a, e=False)` with `a` bound to `1`. -/
theorem bool_flag_pair_semantics_witness :
    Namespace.parseArgs ⟨"k", "", "", [("go", ⟨"",
        ⟨reqParams ["a"] ++ [⟨"e", .posOrKw, some (.vbool false)⟩]⟩⟩)]⟩ "go"
        ["1", "--e"]
      = .ok [("a", .vstr "1"), ("e", .vbool true)]
  ∧ Namespace.parseArgs ⟨"k", "", "", [("go", ⟨"",
        ⟨reqParams ["a"] ++ [⟨"e", .posOrKw, some (.vbool false)⟩]⟩⟩)]⟩ "go"
        ["1", "--e", "--noe"]
      = .error (.parse (.notAllowedWith "--noe" "--e")) := by
  have h := bool_flag_pair_semantics "k" "go" "" "" "" "e" ["a"] ["1"]
    (by decide) rfl (by decide) (by decide) (by decide) (by decide)
  exact ⟨h.2.2.2.2.2.2.1, h.2.2.2.2.2.2.2.2.1⟩

theorem seqIdxs_length (n : Nat) : ∀ b, (seqIdxs n b).length = n := by
  induction n with
  | zero => intro b; rfl
  | succ m ih => intro b; simp [seqIdxs, ih]

theorem reqActsVar_length (names : List String) :
    (reqActsVar names).length = names.length := by
  simp [reqActsVar]

theorem sumList_append (a b : List Nat) :
    sumList (a ++ b) = sumList a + sumList b := by
  induction a with
  | nil => simp [sumList]
  | cons x xs ih => simp [sumList, ih]; omega

theorem natContains_of_mem (l : List Nat) (i : Nat) (h : i ∈ l) :
    l.contains i = true := by
  induction l with
  | nil => cases h
  | cons a as ih =>
    rcases List.mem_cons.mp h with rfl | h2
    · simp [List.contains_cons]
    · simp only [List.contains_cons, ih h2, Bool.or_true]

/-- The required-actions check passes when every `posOne` positional was
seen. -/
theorem requiredActionsCheck_none2 (g : Grammar) (st : PState)
    (h : ∀ i ∈ positionalIdxs g.actions 0, (g.act i).kind = .posOne →
      st.seen.contains i = true) :
    requiredActionsCheck g st = none := by
  have hfil : (positionalIdxs g.actions 0).filter
      (fun i => (g.act i).kind == .posOne && !(st.seen.contains i)) = [] := by
    rw [List.filter_eq_nil_iff]
    intro i hi
    by_cases hk : (g.act i).kind = .posOne
    · have hc := h i hi hk
      simp only [hk, beq_self_eq_true, Bool.true_and, hc, Bool.not_true]
      simp
    · simp [hk]
  simp only [requiredActionsCheck]
  rw [hfil]
  rfl

/-- The phases of `parse_args` after a loop that consumed every pending
positional, with explicit check results. -/
theorem parseTokens_phases2 (g : Grammar) (argv : List String) (st : PState)
    (hloop : parseLoop g argv.length (initState g) argv = .ok st)
    (hpendnil : st.pending = [])
    (hreq : requiredActionsCheck g st = none)
    (hgc : groupCheck g st = none)
    (hex : st.extras = []) :
    parseTokens g argv = .ok st.attrs := by
  unfold parseTokens
  rw [hloop]
  show (match requiredActionsCheck g (endConsume g st) with
    | some e => Except.error e
    | none =>
      match groupCheck g (endConsume g st) with
      | some e => Except.error e
      | none =>
        if (endConsume g st).extras.isEmpty then Except.ok (endConsume g st).attrs
        else Except.error (ParseErr.unrecognizedArguments (endConsume g st).extras))
    = Except.ok st.attrs
  rw [endConsume_nil_pending g st hpendnil, hreq, hgc]
  simp [hex]

theorem act_decomp_var_head (g : Grammar) (A B : List Action) (n : String)
    (rest : List String)
    (hg : g.actions = A ++ reqActsVar (n :: rest) ++ B) :
    g.act A.length = ⟨n, .posOne, none⟩ := by
  have hlen : A.length < (A ++ reqActsVar (n :: rest)).length := by
    simp [reqActsVar_length]
  unfold Grammar.act
  rw [hg, getD_append_left _ _ _ _ hlen,
    getD_append_right2 _ _ _ _ (Nat.le_refl _), Nat.sub_self]
  rfl

theorem reqActsVar_shift (rest : List String) (g : Grammar)
    (A B : List Action) (n : String)
    (hg : g.actions = A ++ reqActsVar (n :: rest) ++ B) :
    g.actions = (A ++ [⟨n, .posOne, none⟩]) ++ reqActsVar rest ++ B := by
  simpa [reqActsVar, List.append_assoc] using hg

theorem positionalIdxs_var (names : List String) (v : String) (k : ActKind)
    (hk : k = .posStar ∨ k = .posRem) :
    ∀ b, positionalIdxs (reqActsVar names ++ [⟨v, k, none⟩]) b
      = seqIdxs names.length b ++ [b + names.length] := by
  induction names with
  | nil =>
    intro b
    rcases hk with rfl | rfl <;>
      simp [reqActsVar, positionalIdxs, Action.isPositional, seqIdxs]
  | cons n rest ih =>
    intro b
    rw [show reqActsVar (n :: rest) ++ [⟨v, k, none⟩]
        = (⟨n, .posOne, none⟩ : Action) :: (reqActsVar rest ++ [⟨v, k, none⟩]) from by
      simp [reqActsVar]]
    have hcond : (⟨n, .posOne, none⟩ : Action).isPositional = true := rfl
    rw [positionalIdxs, if_pos hcond, ih (b + 1)]
    simp [seqIdxs]
    omega

theorem greedyCounts_posOne_star (rest : List String) :
    ∀ (g : Grammar) (A B : List Action) (ilast : Nat) (E : Nat) (k : ActKind),
      g.actions = A ++ reqActsVar rest ++ B →
      (g.act ilast).kind = k → (k = .posStar ∨ k = .posRem) →
      greedyCounts g (seqIdxs rest.length A.length ++ [ilast])
          (rest.length + E) (rest.length + E)
        = some (List.replicate rest.length 1 ++ [E]) := by
  induction rest with
  | nil =>
    intro g A B ilast E k hg hact hk
    rcases hk with rfl | rfl <;>
      simp [seqIdxs, greedyCounts, hact, Nat.sub_self]
  | cons n rs ih =>
    intro g A B ilast E k hg hact hk
    have hhead := act_decomp_var_head g A B n rs hg
    rw [show ((n :: rs) : List String).length = rs.length + 1 from rfl]
    rw [show seqIdxs (rs.length + 1) A.length
        = A.length :: seqIdxs rs.length (A.length + 1) from rfl]
    rw [show (A.length :: seqIdxs rs.length (A.length + 1)) ++ [ilast]
        = A.length :: (seqIdxs rs.length (A.length + 1) ++ [ilast]) from rfl]
    rw [greedyCounts, hhead]
    rw [if_neg (by omega)]
    have harith : rs.length + 1 + E - 1 = rs.length + E := by omega
    rw [harith]
    have hih := ih g (A ++ [⟨n, .posOne, none⟩]) B ilast E k
      (reqActsVar_shift rs g A B n hg) hact hk
    rw [show (A ++ [(⟨n, .posOne, none⟩ : Action)]).length = A.length + 1 from by
      simp] at hih
    rw [hih]
    simp [List.replicate_succ]

theorem matchPartial_of_full (g : Grammar) (P : List Nat) (availA total : Nat)
    (cs : List Nat)
    (h : greedyCounts g P availA total = some cs) :
    matchPartial g P availA total = cs := by
  unfold matchPartial
  cases hP : P.length with
  | zero =>
    have hnil : P = [] := List.length_eq_zero.mp hP
    subst hnil
    simp only [greedyCounts] at h
    cases h
    rfl
  | succ n =>
    unfold matchPartialFrom
    rw [show P.take (n + 1) = P from by rw [← hP]; exact List.take_length P]
    rw [h]

/-- `consume_positionals` over the `posOne` block of a `*args` grammar:
each required positional takes exactly one token. -/
theorem assignPositionals_var_block (rest : List String) :
    ∀ (vals extraT : List String) (g : Grammar) (A B : List Action)
      (st : PState) (IS CS : List Nat),
      g.actions = A ++ reqActsVar rest ++ B →
      rest.length = vals.length →
      rest.Nodup →
      (∀ n ∈ rest, n ∉ st.attrs.map (fun p => p.1)) →
      assignPositionals g st (seqIdxs rest.length A.length ++ IS)
          (List.replicate rest.length 1 ++ CS) (vals ++ extraT)
        = assignPositionals g
            ⟨st.attrs ++ strBindings rest vals,
             st.seen ++ seqIdxs rest.length A.length,
             st.seenND ++ seqIdxs rest.length A.length,
             st.pending, st.extras⟩ IS CS extraT := by
  induction rest with
  | nil =>
    intro vals extraT g A B st IS CS hg hlen hnd hfresh
    have hv : vals = [] := List.length_eq_zero.mp hlen.symm
    subst hv
    cases st
    simp [seqIdxs, strBindings]
  | cons n rs ih =>
    intro vals extraT g A B st IS CS hg hlen hnd hfresh
    cases vals with
    | nil => simp at hlen
    | cons v vs =>
      have hlen2 : rs.length = vs.length := by simpa using hlen
      have hact := act_decomp_var_head g A B n rs hg
      have hconf : groupConflict g st A.length = none :=
        groupConflict_none_of_groupless g st A.length (by rw [hact])
      have hfreshn : n ∉ st.attrs.map (fun p => p.1) := hfresh n (by simp)
      have hstep : assignPositionals g st
          ((A.length :: seqIdxs rs.length (A.length + 1)) ++ IS)
          ((1 :: List.replicate rs.length 1) ++ CS) ((v :: vs) ++ extraT)
          = assignPositionals g
            ⟨st.attrs ++ [(n, .vstr v)], st.seen ++ [A.length],
             st.seenND ++ [A.length], st.pending, st.extras⟩
            (seqIdxs rs.length (A.length + 1) ++ IS)
            (List.replicate rs.length 1 ++ CS) (vs ++ extraT) := by
        simp only [List.cons_append]
        rw [assignPositionals]
        rw [show ((v :: (vs ++ extraT)).take 1) = [v] from rfl,
          show ((v :: (vs ++ extraT)).drop 1) = vs ++ extraT from rfl,
          hact]
        simp only [convert]
        rw [takeAction, hconf]
        simp only [hact]
        rw [setAttr_fresh st.attrs n (.vstr v) hfreshn]
      have hihst := ih vs extraT g (A ++ [(⟨n, .posOne, none⟩ : Action)]) B
        ⟨st.attrs ++ [(n, .vstr v)], st.seen ++ [A.length],
         st.seenND ++ [A.length], st.pending, st.extras⟩ IS CS
        (reqActsVar_shift rs g A B n hg) hlen2 hnd.of_cons
        (by
          intro n2 hn2
          simp only [List.map_append, List.mem_append]
          push_neg
          refine ⟨hfresh n2 (by simp [hn2]), ?_⟩
          have : n2 ≠ n := by
            intro hcontra
            subst hcontra
            exact (List.nodup_cons.mp hnd).1 hn2
          simp [this])
      rw [show ((n :: rs) : List String).length = rs.length + 1 from rfl]
      rw [show seqIdxs (rs.length + 1) A.length
          = A.length :: seqIdxs rs.length (A.length + 1) from rfl]
      rw [show List.replicate (rs.length + 1) 1 = 1 :: List.replicate rs.length 1
        from by simp [List.replicate_succ]]
      rw [hstep]
      rw [show (A ++ [(⟨n, .posOne, none⟩ : Action)]).length = A.length + 1 from by
        simp] at hihst
      rw [hihst]
      congr 1
      simp [strBindings, seqIdxs]

/-- The final `*args` positional stores the tuple of all remaining tokens. -/
theorem assignPositionals_var_last (g : Grammar) (st : PState) (i : Nat)
    (k : ActKind) (v : String) (extraT : List String)
    (hact : g.act i = ⟨v, k, none⟩)
    (hk : k = .posStar ∨ k = .posRem)
    (hfresh : v ∉ st.attrs.map (fun p => p.1)) :
    assignPositionals g st [i] [extraT.length] extraT
      = .ok ⟨st.attrs ++ [(v, .vtuple (extraT.map .vstr))], st.seen ++ [i],
             st.seenND ++ [i], st.pending, st.extras⟩ := by
  have hconf : groupConflict g st i = none :=
    groupConflict_none_of_groupless g st i (by rw [hact])
  rcases hk with rfl | rfl <;>
  · rw [assignPositionals]
    rw [show extraT.take extraT.length = extraT from List.take_length extraT]
    simp only [hact, takeAction, hconf, setAttr_fresh st.attrs v _ hfresh]
    rfl

/-- The whole loop for a `*args` grammar on required values followed by
extra trailing tokens: one positional run consumes everything. -/
theorem parseLoop_var_run (names values extraT : List String) (v : String)
    (k : ActKind) (fuel : Nat)
    (hk : k = .posStar ∨ k = .posRem)
    (hlen : names.length = values.length)
    (hnd : names.Nodup) (hv : v ∉ names)
    (hplain : ∀ t ∈ values ++ extraT, tokenIsOpt t = false)
    (hne : values ++ extraT ≠ []) :
    parseLoop ⟨reqActsVar names ++ [⟨v, k, none⟩], []⟩ (fuel + 1)
        (initState ⟨reqActsVar names ++ [⟨v, k, none⟩], []⟩) (values ++ extraT)
      = .ok ⟨strBindings names values ++ [(v, .vtuple (extraT.map .vstr))],
             seqIdxs names.length 0 ++ [names.length],
             seqIdxs names.length 0 ++ [names.length], [], []⟩ := by
  set g : Grammar := ⟨reqActsVar names ++ [⟨v, k, none⟩], []⟩ with hgdef
  have hgact : g.actions = [] ++ reqActsVar names ++ [⟨v, k, none⟩] := by
    simp [hgdef]
  have hpending : initState g
      = ⟨[], [], [], seqIdxs names.length 0 ++ [names.length], []⟩ := by
    unfold initState
    rw [show g.actions = reqActsVar names ++ [⟨v, k, none⟩] from by rw [hgdef]]
    rw [positionalIdxs_var names v k hk 0]
    simp
  obtain ⟨t, ts, hts⟩ : ∃ t ts, values ++ extraT = t :: ts := by
    cases hcase : values ++ extraT with
    | nil => exact absurd hcase hne
    | cons a as => exact ⟨a, as, rfl⟩
  have hTOT : (values ++ extraT).length = names.length + extraT.length := by
    rw [List.length_append, hlen]
  have htplain : tokenIsOpt t = false := by
    apply hplain
    rw [hts]
    simp
  have havail : ((values ++ extraT).takeWhile (fun x => !(tokenIsOpt x)))
      = values ++ extraT :=
    takeWhile_all_true _ _ (fun x hx => by simp [hplain x hx])
  have hact_last : g.act names.length = ⟨v, k, none⟩ := by
    unfold Grammar.act
    rw [show g.actions = reqActsVar names ++ [⟨v, k, none⟩] from by rw [hgdef]]
    rw [show names.length = (reqActsVar names).length
      from (reqActsVar_length names).symm]
    rw [getD_append_right2 _ _ _ _ (Nat.le_refl _), Nat.sub_self]
    rfl
  have hgreedy := greedyCounts_posOne_star names g [] [⟨v, k, none⟩]
    names.length extraT.length k hgact (by rw [hact_last]) hk
  have hmp : matchPartial g (seqIdxs names.length 0 ++ [names.length])
      (values ++ extraT).length (values ++ extraT).length
      = List.replicate names.length 1 ++ [extraT.length] := by
    rw [hTOT]
    exact matchPartial_of_full _ _ _ _ _ (by simpa using hgreedy)
  have hblock := assignPositionals_var_block names values extraT g []
    [⟨v, k, none⟩] ⟨[], [], [], [], []⟩ [names.length] [extraT.length]
    hgact hlen hnd (by simp)
  simp only [List.length_nil, List.nil_append] at hblock
  have hlast := assignPositionals_var_last g
    ⟨strBindings names values, seqIdxs names.length 0, seqIdxs names.length 0,
     [], []⟩ names.length k v extraT hact_last hk
    (by rw [strBindings_keys names values hlen]; exact hv)
  have hassign := hblock.trans hlast
  have hPlen : (seqIdxs names.length 0 ++ [names.length]).length
      = names.length + 1 := by
    simp [seqIdxs_length]
  obtain ⟨c, cs2, hccs⟩ : ∃ c cs2,
      List.replicate names.length 1 ++ [extraT.length] = c :: cs2 := by
    cases hrc : List.replicate names.length 1 ++ [extraT.length] with
    | nil => simp at hrc
    | cons a as => exact ⟨a, as, rfl⟩
  have hcslen : (c :: cs2).length = names.length + 1 := by
    rw [← hccs]
    simp
  have hsum2 : sumList (List.replicate names.length 1 ++ [extraT.length])
      = names.length + extraT.length := by
    rw [sumList_append, sumList_replicate_one]
    simp [sumList]
  have htake : (seqIdxs names.length 0 ++ [names.length]).take (c :: cs2).length
      = seqIdxs names.length 0 ++ [names.length] := by
    rw [hcslen, ← hPlen, List.take_length]
  have hdrop : (seqIdxs names.length 0 ++ [names.length]).drop (c :: cs2).length
      = [] := by
    rw [hcslen, ← hPlen, List.drop_length]
  rw [hts, parseLoop, hpending]
  simp only [htplain, Bool.false_eq_true, if_false]
  rw [← hts]
  rw [havail, hmp, hccs]
  show (match assignPositionals g
      ⟨[], [], [], (seqIdxs names.length 0 ++ [names.length]).drop (c :: cs2).length, []⟩
      ((seqIdxs names.length 0 ++ [names.length]).take (c :: cs2).length)
      (c :: cs2) (values ++ extraT) with
    | .error e => Except.error e
    | .ok st2 => parseLoop g fuel st2
        ((values ++ extraT).drop (sumList (c :: cs2)))) = _
  rw [htake, hdrop, ← hccs, hassign]
  show parseLoop g fuel _ ((values ++ extraT).drop
    (sumList (List.replicate names.length 1 ++ [extraT.length]))) = _
  rw [hsum2, ← hTOT, List.drop_length]
  exact parseLoop_nil _ _ _

/-- `collect` over the required-parameter prefix while still before the
`*args` parameter: values are collected positionally. -/
theorem foldlM_collect_before (attrs : List (String × Value)) (names : List String)
    (ps2 : List Param) :
    ∀ (values : List String) (st : CollectSt),
      st.beforeVar = true →
      List.Forall₂ (fun n v => lookupAttr attrs n = some (.vstr v)) names values →
      (reqParams names ++ ps2).foldlM (collectStep attrs) st
        = ps2.foldlM (collectStep attrs)
            ⟨st.args ++ values.map .vstr, st.kwargs, true⟩ := by
  induction names with
  | nil =>
    intro values st hbv hf
    cases hf
    cases st with
    | mk a kw bv =>
      simp only at hbv
      subst hbv
      simp [reqParams]
  | cons n ns ih =>
    intro values st hbv hf
    cases hf with
    | cons hnv htail =>
      rename_i w ws
      have hstep : collectStep attrs st ⟨n, .posOrKw, none⟩
          = .ok ⟨st.args ++ [.vstr w], st.kwargs, st.beforeVar⟩ := by
        simp only [collectStep, hbv]
        rw [hnv]
        simp [hbv]
      rw [show reqParams (n :: ns) ++ ps2
          = (⟨n, .posOrKw, none⟩ : Param) :: (reqParams ns ++ ps2) from by
        simp [reqParams]]
      simp only [List.foldlM, hstep]
      have hih := ih ws ⟨st.args ++ [.vstr w], st.kwargs, st.beforeVar⟩
        (by simp [hbv]) htail
      refine hih.trans ?_
      simp

theorem bindGo_req_args (names : List String) :
    ∀ (values : List String) (psTail : List Param) (argsTail : List Value),
      names.length = values.length →
      bindGo (reqParams names ++ psTail) (values.map .vstr ++ argsTail) []
        = match bindGo psTail argsTail [] with
          | .ok tl => .ok (strBindings names values ++ tl)
          | .error e => .error e := by
  induction names with
  | nil =>
    intro values psTail argsTail hlen
    have hval : values = [] := List.length_eq_zero.mp hlen.symm
    subst hval
    simp only [reqParams, List.map_nil, List.nil_append, strBindings]
    cases hbt : bindGo psTail argsTail [] <;> simp [strBindings]
  | cons n ns ih =>
    intro values psTail argsTail hlen
    cases values with
    | nil => simp at hlen
    | cons w ws =>
      have hlen2 : ns.length = ws.length := by simpa using hlen
      rw [show reqParams (n :: ns) ++ psTail
          = (⟨n, .posOrKw, none⟩ : Param) :: (reqParams ns ++ psTail) from by
        simp [reqParams]]
      rw [show (List.map Value.vstr (w :: ws)) ++ argsTail
          = Value.vstr w :: (List.map Value.vstr ws ++ argsTail) from by simp]
      show (match bindGo (reqParams ns ++ psTail)
          (List.map Value.vstr ws ++ argsTail) [] with
        | .error e => Except.error e
        | .ok tl => Except.ok ((n, Value.vstr w) :: tl)) = _
      rw [ih ws psTail argsTail hlen2]
      cases hbt : bindGo psTail argsTail [] <;> simp [strBindings]

/-! ## C4 -/

/-- C4: for a command whose parameters are required scalars followed by a
`*args` variadic parameter `v`, supplying the required values plus any
trailing extra positional tokens binds `v` to exactly the tuple of those
extras in order; in particular supplying only the required values binds `v`
to the empty tuple. -/
theorem variadic_parameter_binding
    (key cmd docstr d1 d2 v : String) (names values extras : List String)
    (hnd : names.Nodup) (hlen : names.length = values.length)
    (hv : v ∉ names)
    (hplainV : ∀ t ∈ values, tokenIsOpt t = false)
    (hplainE : ∀ t ∈ extras, tokenIsOpt t = false) :
    Namespace.parseArgs
        ⟨key, d1, d2, [(cmd, ⟨docstr, ⟨reqParams names ++ [⟨v, .varPos, none⟩]⟩⟩)]⟩
        cmd (values ++ extras)
      = .ok (strBindings names values ++ [(v, .vtuple (extras.map .vstr))])
  ∧ Namespace.parseArgs
        ⟨key, d1, d2, [(cmd, ⟨docstr, ⟨reqParams names ++ [⟨v, .varPos, none⟩]⟩⟩)]⟩
        cmd values
      = .ok (strBindings names values ++ [(v, .vtuple [])]) := by
  have hk : varActKind key cmd = .posStar ∨ varActKind key cmd = .posRem := by
    unfold varActKind
    by_cases hc : (key == "system" && cmd == "smart_complete") = true
    · rw [if_pos hc]
      exact Or.inr rfl
    · rw [if_neg hc]
      exact Or.inl rfl
  have hgram := argumentParser_var key cmd docstr v names
  have hbvp : (⟨reqParams names ++ [⟨v, .varPos, none⟩]⟩ : Sig).hasVarPos = true := by
    simp [Sig.hasVarPos, List.any_append]
  have hkeys : ∀ p ∈ strBindings names values, p.1 ≠ v := by
    intro p hp hc
    have hmem : p.1 ∈ names := by
      rw [← strBindings_keys names values hlen]
      exact List.mem_map_of_mem _ hp
    exact hv (hc ▸ hmem)
  have hgen : ∀ ex : List String, (∀ t ∈ ex, tokenIsOpt t = false) →
      Namespace.parseArgs
        ⟨key, d1, d2, [(cmd, ⟨docstr, ⟨reqParams names ++ [⟨v, .varPos, none⟩]⟩⟩)]⟩
        cmd (values ++ ex)
      = .ok (strBindings names values ++ [(v, .vtuple (ex.map .vstr))]) := by
    intro ex hplE
    have hplainAll : ∀ t ∈ values ++ ex, tokenIsOpt t = false := by
      intro t ht
      rcases List.mem_append.mp ht with h | h
      · exact hplainV t h
      · exact hplE t h
    have hpt : parseTokens
        ⟨reqActsVar names ++ [⟨v, varActKind key cmd, none⟩], []⟩ (values ++ ex)
        = .ok (strBindings names values ++ [(v, .vtuple (ex.map .vstr))]) := by
      by_cases hne : values ++ ex = []
      · obtain ⟨hv0, he0⟩ := List.append_eq_nil.mp hne
        have hn0 : names = [] := by
          rw [hv0] at hlen
          exact List.length_eq_zero.mp (by simpa using hlen)
        subst hv0
        subst he0
        subst hn0
        rcases hk with hkk | hkk <;> rw [hkk] <;> rfl
      · have hlpos : 0 < (values ++ ex).length := List.length_pos.mpr hne
        have hloop := parseLoop_var_run names values ex v (varActKind key cmd)
          ((values ++ ex).length - 1) hk hlen hnd hv hplainAll hne
        have hloop2 : parseLoop
            ⟨reqActsVar names ++ [⟨v, varActKind key cmd, none⟩], []⟩
            (values ++ ex).length
            (initState ⟨reqActsVar names ++ [⟨v, varActKind key cmd, none⟩], []⟩)
            (values ++ ex)
            = .ok ⟨strBindings names values ++ [(v, .vtuple (ex.map .vstr))],
                   seqIdxs names.length 0 ++ [names.length],
                   seqIdxs names.length 0 ++ [names.length], [], []⟩ := by
          rw [show (values ++ ex).length = ((values ++ ex).length - 1) + 1 from by
            omega]
          exact hloop
        have hreq : requiredActionsCheck
            ⟨reqActsVar names ++ [⟨v, varActKind key cmd, none⟩], []⟩
            ⟨strBindings names values ++ [(v, .vtuple (ex.map .vstr))],
             seqIdxs names.length 0 ++ [names.length],
             seqIdxs names.length 0 ++ [names.length], [], []⟩ = none := by
          refine requiredActionsCheck_none2 _ _ (fun i hi _ => ?_)
          rw [show (⟨reqActsVar names ++ [⟨v, varActKind key cmd, none⟩],
              ([] : List Bool)⟩ : Grammar).actions
              = reqActsVar names ++ [⟨v, varActKind key cmd, none⟩] from rfl,
            positionalIdxs_var names v _ hk 0] at hi
          exact natContains_of_mem _ _ (by simpa using hi)
        exact parseTokens_phases2 _ _ _ hloop2 rfl hreq rfl rfl
    have hlookV : List.Forall₂ (fun n w =>
        lookupAttr (strBindings names values ++ [(v, .vtuple (ex.map .vstr))]) n
          = some (.vstr w)) names values := by
      simpa using lookupAttr_strBindings names values []
        [(v, .vtuple (ex.map .vstr))] hnd hlen (by simp)
    have hcoll : (reqParams names ++ [(⟨v, .varPos, none⟩ : Param)]).foldlM
        (collectStep (strBindings names values ++ [(v, .vtuple (ex.map .vstr))]))
        (⟨[], [], (⟨reqParams names
          ++ [⟨v, .varPos, none⟩]⟩ : Sig).hasVarPos⟩ : CollectSt)
        = .ok ⟨values.map .vstr ++ ex.map .vstr, [], false⟩ := by
      rw [hbvp]
      refine (foldlM_collect_before _ names _ values _ rfl hlookV).trans ?_
      have hlkV : lookupAttr
          (strBindings names values ++ [(v, .vtuple (ex.map .vstr))]) v
          = some (.vtuple (ex.map .vstr)) := by
        rw [lookupAttr_append_skip _ _ _ hkeys]
        simp [lookupAttr]
      have hstepV : collectStep
          (strBindings names values ++ [(v, .vtuple (ex.map .vstr))])
          ⟨[] ++ values.map Value.vstr, [], true⟩ ⟨v, .varPos, none⟩
          = .ok ⟨([] ++ values.map Value.vstr) ++ ex.map Value.vstr, [], false⟩ := by
        simp [collectStep, hlkV]
      simp only [List.foldlM, hstepV]
      simp
    have hbind : bindGo (reqParams names ++ [(⟨v, .varPos, none⟩ : Param)])
        (values.map .vstr ++ ex.map .vstr) []
        = .ok (strBindings names values ++ [(v, .vtuple (ex.map .vstr))]) := by
      have h := bindGo_req_args names values [⟨v, .varPos, none⟩] (ex.map .vstr) hlen
      have htail : bindGo [(⟨v, .varPos, none⟩ : Param)] (ex.map Value.vstr) []
          = .ok [(v, .vtuple (ex.map Value.vstr))] := rfl
      rw [h, htail]
    exact parseArgs_eval key d1 d2 cmd _ (values ++ ex) _ _
      ⟨values.map .vstr ++ ex.map .vstr, [], false⟩ _ hgram hpt hcoll hbind
  refine ⟨hgen extras hplainE, ?_⟩
  have h2 := hgen [] (by simp)
  simpa using h2

/-- C4 witness: the command `go(a, *vs)` with `a` bound to `1` and extras
`x`, `y`. -/
theorem variadic_parameter_binding_witness :
    Namespace.parseArgs ⟨"k", "", "", [("go", ⟨"",
        ⟨reqParams ["a"] ++ [⟨"vs", .varPos, none⟩]⟩⟩)]⟩ "go" ["1", "x", "y"]
      = .ok [("a", .vstr "1"), ("vs", .vtuple [.vstr "x", .vstr "y"])]
  ∧ Namespace.parseArgs ⟨"k", "", "", [("go", ⟨"",
        ⟨reqParams ["a"] ++ [⟨"vs", .varPos, none⟩]⟩⟩)]⟩ "go" ["1"]
      = .ok [("a", .vstr "1"), ("vs", .vtuple [])] :=
  variadic_parameter_binding "k" "go" "" "" "" "vs" ["a"] ["1"] ["x", "y"]
    (by decide) rfl (by decide) (by decide) (by decide)

end Clr
